import Mathlib

/-!
Verification of the action-package import-and-reconciliation engine
(`_actions_import.py`).

The development shallowly embeds the source module:
* the catalog rows (`ActionPackage`, `Action`) and the catalog state `Db`;
* the storage primitives the engine consumes (typed insert, update-by-id,
  select, scoped transaction with commit-on-success / rollback-on-exception
  semantics) as a `Write` language applied to a `Db`;
* the reconciler `_add_actions_to_db` (its database part) as `addActionsToDb`;
* the discovery-subprocess outcome classification of `_add_actions_to_db`;
* the manifest-reading head and the version gate of `import_action_package`.

External collaborators (yaml/json parsing, RCC provisioning, subprocesses)
are passed in as explicit data or function arguments, mirroring the spec's
interface contracts.
-/

namespace RoboImport

/-- A parsed Python value, as produced by `yaml.safe_load` / `json.loads`.
Mappings keep the assignment order; a lookup returns the value of the last
assignment of a key (Python `dict` semantics). -/
inductive PyObj where
  | none
  | bool (b : Bool)
  | int (n : Int)
  | str (s : String)
  | list (xs : List PyObj)
  | dict (kvs : List (String × PyObj))
deriving Repr

/-- Python `d.get(k)` on a dict built by assigning the pairs in order:
the last assignment of a key wins. -/
def pyDictGet (kvs : List (String × PyObj)) (k : String) : Option PyObj :=
  (kvs.reverse.find? (fun kv => kv.1 == k)).map (fun kv => kv.2)

/-- Python truthiness of a parsed value (`if not contents.get("dependencies")`). -/
def pyTruthy : PyObj → Bool
  | .none => false
  | .bool b => b
  | .int n => n != 0
  | .str s => s != ""
  | .list xs => !xs.isEmpty
  | .dict kvs => !kvs.isEmpty

/-- Catalog row for an action package (`_models.ActionPackage`): generated id,
name (the natural key for reconciliation), source directory, dependency
content hash and the serialized environment-variable mapping. -/
structure ActionPackage where
  id : String
  name : String
  directory : String
  conda_hash : String
  env_json : String
deriving Repr, DecidableEq

/-- Catalog row for an action (`_models.Action`). -/
structure Action where
  id : String
  action_package_id : String
  name : String
  docs : String
  file : String
  lineno : Int
  input_schema : String
  output_schema : String
  enabled : Bool
  is_consequential : Option Bool
deriving Repr, DecidableEq

/-- The catalog state: the two tables, rows in table order. -/
structure Db where
  action_packages : List ActionPackage
  actions : List Action
deriving Repr, DecidableEq

/-- One catalog write of the reconciler, in the storage interface's language:
typed insert, update-by-id with a field dict.  `updatePackageById`/
`updateActionById` carry the full new row whose `id` entry was deleted from
the dict (`del new_action_as_dict["id"]`), so every field except `id` is
overwritten; `disableActionById` carries `dict(enabled=False)`. -/
inductive Write where
  | insertPackage (p : ActionPackage)
  | insertAction (a : Action)
  | updatePackageById (i : String) (f : ActionPackage)
  | updateActionById (i : String) (f : Action)
  | disableActionById (i : String)
deriving Repr, DecidableEq

/-- Effect of one write on the `action_package` table. -/
def Write.applyP : Write → List ActionPackage → List ActionPackage
  | .insertPackage p, ps => ps ++ [p]
  | .updatePackageById i f, ps =>
      ps.map (fun r => if r.id == i then { f with id := r.id } else r)
  | _, ps => ps

/-- Effect of one write on the `action` table. -/
def Write.applyA : Write → List Action → List Action
  | .insertAction a, as => as ++ [a]
  | .updateActionById i f, as =>
      as.map (fun r => if r.id == i then { f with id := r.id } else r)
  | .disableActionById i, as =>
      as.map (fun r => if r.id == i then { r with enabled := false } else r)
  | _, as => as

def applyWrite (db : Db) (w : Write) : Db :=
  ⟨w.applyP db.action_packages, w.applyA db.actions⟩

def applyWrites (db : Db) (ws : List Write) : Db :=
  ws.foldl applyWrite db

/-- One scoped storage transaction (`with db.transaction():`), the storage
engine's contracted semantics: the writes are applied in order; if the write
at index `failAt` raises (a storage error partway), the whole transaction is
rolled back and the catalog is left exactly as it was; otherwise it commits.
`failAt = none`, or an index at or past the end, means no write fails.
Returns the resulting catalog and whether the transaction committed. -/
def runTransaction (db : Db) (ws : List Write) (failAt : Option Nat) : Db × Bool :=
  match failAt with
  | Option.none => (applyWrites db ws, true)
  | Option.some k => if k < ws.length then (db, false) else (applyWrites db ws, true)

/-- Python dict `existing_action_name_to_action` built by iterating the
selected rows and assigning `d[action.name] = action`: a lookup returns the
last row with that name. -/
def pyDictGetByName (rows : List Action) (n : String) : Option Action :=
  rows.reverse.find? (fun a => a.name == n)

/-- The per-discovered-action loop of `_add_actions_to_db`'s update branch:
for each discovered action, set its `action_package_id` to the existing
package's id; if an existing action of the same name exists, update it by id
(all fields except `id` overwritten) and mark the existing id seen, else
insert the discovered row and mark its fresh id seen.  Returns the writes in
loop order together with `seen_action_ids`. -/
def actionLoop (existingPackageId : String) (existing_actions : List Action) :
    List Action → List Write × List String
  | [] => ([], [])
  | a :: rest =>
    let a2 := { a with action_package_id := existingPackageId }
    let (ws, seen) := actionLoop existingPackageId existing_actions rest
    match pyDictGetByName existing_actions a.name with
    | Option.some existing_action =>
        (Write.updateActionById existing_action.id a2 :: ws, existing_action.id :: seen)
    | Option.none =>
        (Write.insertAction a2 :: ws, a2.id :: seen)

/-- The database part of `_add_actions_to_db` (everything from `db = get_db()`
on), with the discovered `actions` already built.  All reads (`db.first`,
`db.select`, `db.all`) happen before the transaction; every catalog write of
the reconciliation is issued inside the one `db.transaction()` scope of the
taken branch.  `failAt` is the storage-failure oracle of `runTransaction`. -/
def addActionsToDb (db : Db) (action_package : ActionPackage) (actions : List Action)
    (disable_not_imported : Bool) (failAt : Option Nat) : Db × Bool :=
  match db.action_packages.find? (fun p => p.name == action_package.name) with
  | Option.none =>
      runTransaction db
        (Write.insertPackage action_package :: actions.map Write.insertAction) failAt
  | Option.some existing_action_package =>
      let existing_actions :=
        db.actions.filter (fun a => a.action_package_id == existing_action_package.id)
      let all_actions := db.actions
      let (actionWrites, seen_action_ids) :=
        actionLoop existing_action_package.id existing_actions actions
      let disableWrites :=
        if disable_not_imported then
          (all_actions.filter (fun a => !(seen_action_ids.contains a.id))).map
            (fun a => Write.disableActionById a.id)
        else []
      runTransaction db
        (Write.updatePackageById existing_action_package.id action_package ::
          (actionWrites ++ disableWrites)) failAt

/-- `seen_action_ids` of an import run, for stating the disable-pass claims. -/
def importSeenIds (db : Db) (action_package : ActionPackage) (actions : List Action) :
    List String :=
  match db.action_packages.find? (fun p => p.name == action_package.name) with
  | Option.none => []
  | Option.some existing_action_package =>
      (actionLoop existing_action_package.id
        (db.actions.filter (fun a => a.action_package_id == existing_action_package.id))
        actions).2

/-! ## Error kinds raised by the import pipeline -/

/-- The exception kinds the module raises: `ActionPackageError`,
`ActionServerValidationError` and Python's `RuntimeError`. -/
inductive ImportError where
  | actionPackageError (msg : String)
  | actionServerValidationError (msg : String)
  | runtimeError (msg : String)
deriving Repr, DecidableEq

/-! ## Python `repr` and `json.dumps` of parsed values (external stdlib) -/

mutual

/-- Python `repr` of a parsed value (stdlib, consumed by the hash at line 116).
What the theorems use is only that it is a function of the parsed structure. -/
def pyRepr : PyObj → String
  | .none => "None"
  | .bool b => if b then "True" else "False"
  | .int n => toString n
  | .str s => "\x27" ++ s ++ "\x27"
  | .list xs => "[" ++ pyReprItems xs ++ "]"
  | .dict kvs => "\x7b" ++ pyReprPairs kvs ++ "\x7d"

def pyReprItems : List PyObj → String
  | [] => ""
  | [x] => pyRepr x
  | x :: y :: rest => pyRepr x ++ ", " ++ pyReprItems (y :: rest)

def pyReprPairs : List (String × PyObj) → String
  | [] => ""
  | [kv] => "\x27" ++ kv.1 ++ "\x27: " ++ pyRepr kv.2
  | kv :: kv2 :: rest => "\x27" ++ kv.1 ++ "\x27: " ++ pyRepr kv.2 ++ ", " ++ pyReprPairs (kv2 :: rest)

end

mutual

/-- Python `json.dumps` of a parsed value (stdlib, used for the schema and
environment fields).  As with `pyRepr`, only being a function of the parsed
value matters to the theorems. -/
def jsonDumps : PyObj → String
  | .none => "null"
  | .bool b => if b then "true" else "false"
  | .int n => toString n
  | .str s => "\x22" ++ s ++ "\x22"
  | .list xs => "[" ++ jsonDumpsItems xs ++ "]"
  | .dict kvs => "\x7b" ++ jsonDumpsPairs kvs ++ "\x7d"

def jsonDumpsItems : List PyObj → String
  | [] => ""
  | [x] => jsonDumps x
  | x :: y :: rest => jsonDumps x ++ ", " ++ jsonDumpsItems (y :: rest)

def jsonDumpsPairs : List (String × PyObj) → String
  | [] => ""
  | [kv] => "\x22" ++ kv.1 ++ "\x22: " ++ jsonDumps kv.2
  | kv :: kv2 :: rest => "\x22" ++ kv.1 ++ "\x22: " ++ jsonDumps kv.2 ++ ", " ++ jsonDumpsPairs (kv2 :: rest)

end

/-! ## Manifest Reader and Environment Provisioner interface (lines 64-134) -/

/-- Modelled from the spec: `_rcc.create_hash` is code of this repository not
under `src/`.  The spec requires only "a deterministic hash computed from the
parsed structure's string representation"; modelled as a deterministic
polynomial hash of that string. -/
def create_hash (s : String) : String :=
  toString (s.foldl (fun h c => (h * 31 + c.toNat) % 1000000007) 7)

/-- The fixed sentinel dependency hash for a package with no manifest. -/
def unmanagedSentinel : String := "<unmanaged>"

/-- Result payload of `rcc.create_env_and_get_vars`: the environment-variable
mapping of the provisioned environment. -/
structure RccEnvVars where
  env : List (String × String)
deriving Repr, DecidableEq

/-- Outcome of `rcc.create_env_and_get_vars` (external collaborator). -/
structure RccEnvInfo where
  success : Bool
  message : String
  result : Option RccEnvVars
deriving Repr, DecidableEq

def frozenNoManifestMsg (original_action_server_yaml : String) : String :=
  "Unable to import actions in standalone action-server because no `action-server.yaml` is available at: " ++
    original_action_server_yaml ++ "."

def yamlNotValidMsg (action_server_yaml : String) : String :=
  action_server_yaml ++ " does not seem a valid yaml."

def notDictTopLevelMsg (action_server_yaml : String) : String :=
  action_server_yaml ++ " has no dict as top-level."

def noDependenciesMsg (action_server_yaml : String) : String :=
  action_server_yaml ++ " has no \x27dependencies\x27 specified."

def rccBootstrapFailedMsg (message : String) : String :=
  "It was not possible to bootstrap the RCC environment. " ++ "Error: " ++ message

def rccNoResultMsg : String :=
  "It was not possible to get the environment when " ++ "bootstrapping RCC environment."

/-- The manifest-reading and environment-provisioning head of
`import_action_package` (lines 64-134), producing `(condahash, use_env)`.
`primaryExists`/`legacyExists` say which manifest filenames exist in the
package directory; `safeLoadResult` is what `yaml.safe_load` returned for the
chosen file (`none` models the parse exception); `rccCreateEnvAndGetVars` is
the external provisioner, keyed here by the computed hash. -/
def readManifestStage (import_path : String) (primaryExists legacyExists frozen : Bool)
    (safeLoadResult : Option PyObj) (rccCreateEnvAndGetVars : String → RccEnvInfo) :
    Except ImportError (String × List (String × String)) :=
  let original_action_server_yaml := import_path ++ "/action-server.yaml"
  let action_server_yaml :=
    if primaryExists then original_action_server_yaml else import_path ++ "/conda.yaml"
  let action_server_yaml_exists := primaryExists || legacyExists
  if !action_server_yaml_exists then
    if frozen then
      Except.error (.actionServerValidationError (frozenNoManifestMsg original_action_server_yaml))
    else
      Except.ok (unmanagedSentinel, [])
  else
    match safeLoadResult with
    | Option.none => Except.error (.actionPackageError (yamlNotValidMsg action_server_yaml))
    | Option.some contents =>
      match contents with
      | PyObj.dict kvs =>
        if !pyTruthy ((pyDictGet kvs "dependencies").getD PyObj.none) then
          Except.error (.actionPackageError (noDependenciesMsg action_server_yaml))
        else
          let condahash := create_hash (pyRepr contents)
          let env_info := rccCreateEnvAndGetVars condahash
          if !env_info.success then
            Except.error (.actionPackageError (rccBootstrapFailedMsg env_info.message))
          else
            match env_info.result with
            | Option.none => Except.error (.actionPackageError rccNoResultMsg)
            | Option.some r => Except.ok (condahash, r.env)
      | _ => Except.error (.actionPackageError (notDictTopLevelMsg action_server_yaml))

/-! ## Version Gate (lines 165-226) -/

/-- Python `str.strip()` (drop whitespace at both ends), modelled over the
character list. -/
def pyStrip (s : String) : String :=
  String.mk (((s.data.dropWhile Char.isWhitespace).reverse.dropWhile Char.isWhitespace).reverse)

/-- Python `str.split(".")`: split at every dot, keeping empty components. -/
def pySplitDotChars : List Char → List (List Char)
  | [] => [[]]
  | c :: rest =>
    match pySplitDotChars rest with
    | [] => [[]]
    | cur :: parts => if c = '.' then [] :: (cur :: parts) else (c :: cur) :: parts

def pySplitDot (s : String) : List String :=
  (pySplitDotChars s.data).map String.mk

def pyDigitsAux : List Char → Nat → Option Nat
  | [], acc => Option.some acc
  | c :: rest, acc =>
      if c.isDigit then pyDigitsAux rest (acc * 10 + (c.toNat - 48)) else Option.none

/-- Python `int(x)` on a decimal literal: optional sign, then at least one
digit.  (The model omits `int()`'s tolerance for surrounding whitespace and
underscores, which a version component does not contain.) -/
def pyInt? (s : String) : Option Int :=
  match s.data with
  | [] => Option.none
  | c :: rest =>
      if c = '-' then
        match rest with
        | [] => Option.none
        | _ => (pyDigitsAux rest 0).map (fun n => -(n : Int))
      else if c = '+' then
        match rest with
        | [] => Option.none
        | _ => (pyDigitsAux rest 0).map (fun n => (n : Int))
      else (pyDigitsAux (c :: rest) 0).map (fun n => (n : Int))

/-- Parsing of the version probe's stdout (line 224):
`tuple(int(x) for x in str_output.strip().split("."))`; `none` models the
`except` branch (a component `int()` rejects). -/
def parseVersionOutput (str_output : String) : Option (List Int) :=
  (pySplitDot (pyStrip str_output)).mapM pyInt?

/-- Python tuple comparison `v < expected_version`: lexicographic, the first
differing component decides, a strict prefix is smaller; no padding. -/
def pyTupleLt : List Int → List Int → Bool
  | _, [] => false
  | [], _ :: _ => true
  | x :: xs, y :: ys => if x < y then true else if y < x then false else pyTupleLt xs ys

/-- `expected_version = (0, 0, 7)` (line 166). -/
def expectedVersion : List Int := [0, 0, 7]

/-- `".".join(str(x) for x in v)`. -/
def versionString (v : List Int) : String :=
  String.intercalate "." (v.map toString)

def versionTooOldYamlMsg (v : List Int) (action_server_yaml : String) : String :=
  "Error, the `robocorp-actions` version is: " ++ versionString v ++ ".\n" ++
  "Expected `robocorp-actions` version to be " ++ versionString expectedVersion ++ " or higher.\n" ++
  "Please update the version in: " ++ action_server_yaml ++ "\n"

def versionTooOldAmbientMsg (v : List Int) (sys_executable : String) : String :=
  "Error, the `robocorp-actions` version is: " ++ versionString v ++ ".\n" ++
  "Expected it to be " ++ versionString expectedVersion ++ " or higher.\n" ++
  "Please update the `robocorp-actions` version in your python environment (python: " ++
    sys_executable ++ ")\n"

/-- The version gate of `import_action_package` (lines 165-182): compare the
parsed probe tuple against the fixed minimum; on failure the message depends
on whether a manifest file was present. -/
def versionGateStage (v : List Int) (action_server_yaml_exists : Bool)
    (action_server_yaml : String) (sys_executable : String) : Except ImportError Unit :=
  if pyTupleLt v expectedVersion then
    if action_server_yaml_exists then
      Except.error (.actionServerValidationError (versionTooOldYamlMsg v action_server_yaml))
    else
      Except.error (.actionServerValidationError (versionTooOldAmbientMsg v sys_executable))
  else
    Except.ok ()

/-! ## Action Discoverer: subprocess outcome classification (lines 246-299) -/

/-- Captured result of the `robocorp.actions list` subprocess. -/
structure CompletedProc where
  returncode : Int
  stdout : String
  stderr : String
deriving Repr, DecidableEq

/-- `subprocess.list2cmdline` (stdlib): the argument list joined into one
command line (quoting of arguments with blanks is immaterial here). -/
def list2cmdline (args : List String) : String :=
  String.intercalate " " args

/-- Modelled from the spec: `robocorp.actions._lint_action.format_lint_results`
is code of this repository not under `src/`.  Per the spec a decodable
lint-result substructure is decoded "into a human-readable multi-violation
message"; modelled as always producing that rendering. -/
def format_lint_results (lint_result : List (String × PyObj)) : Option String :=
  Option.some ("Lint issues found:\n" ++ pyRepr (PyObj.dict lint_result))

/-- The generic discovery hard-failure message (lines 281-287). -/
def genericListErrorMsg (cmdline cwd stdout stderr : String) : String :=
  "It was not possible to list the actions.\n" ++
  "cmdline: " ++ cmdline ++ "\n" ++
  "cwd: " ++ cwd ++ "\n" ++
  "stdout:" ++ stdout ++ "\n" ++
  "stderr:" ++ stderr

/-- The `robocorp.actions list` command line (lines 248-251). -/
def listCmdline (python : String) (skip_lint : Bool) : List String :=
  [python, "-m", "robocorp.actions", "list"] ++ (if skip_lint then ["--skip-lint"] else [])

/-- Classification of the discovery subprocess outcome (lines 253-299):
exit 0 with JSON stdout succeeds; exit 1 whose stdout is a JSON object with a
dict `lint_result` that renders to a message raises
`ActionServerValidationError` with that message; every other non-zero exit
raises the generic `RuntimeError` carrying the command line, the working
directory and both captured streams; malformed JSON on the success path is
its own `RuntimeError`.  `jsonLoads` is stdlib `json.loads` (`none` models
the decode exception). -/
def listActionsOutcome (jsonLoads : String → Option PyObj) (python : String)
    (skip_lint : Bool) (import_path : String) (proc : CompletedProc) :
    Except ImportError PyObj :=
  let cmdline := listCmdline python skip_lint
  if proc.returncode != 0 then
    Except.error
      ((if proc.returncode == 1 then
          match jsonLoads proc.stdout with
          | Option.some (PyObj.dict loaded_from_stdout) =>
            match pyDictGet loaded_from_stdout "lint_result" with
            | Option.some (PyObj.dict lint_result) =>
              (format_lint_results lint_result).map ImportError.actionServerValidationError
            | _ => Option.none
          | _ => Option.none
        else Option.none).getD
        (ImportError.runtimeError
          (genericListErrorMsg (list2cmdline cmdline) import_path proc.stdout proc.stderr)))
  else
    match jsonLoads proc.stdout with
    | Option.none =>
        Except.error (ImportError.runtimeError
          ("It was not possible to load as json the contents >>" ++ proc.stdout ++ "<<"))
    | Option.some loaded => Except.ok loaded

/-! ## Building the discovered Action rows (lines 301-324) -/

/-- One record of the discovery tool's JSON action list, with the fields the
loop at lines 302-324 reads. -/
structure DiscoveredFields where
  file : String
  name : String
  docs : String
  line : Int
  input_schema : PyObj
  output_schema : PyObj
  options : Option PyObj
deriving Repr

/-- `(action_fields.get("options") or ...)`: the options mapping when it is a
truthy dict, else the empty dict.  (A truthy non-dict value would raise in the
source; the claims never supply one.) -/
def optionsOrEmpty : Option PyObj → List (String × PyObj)
  | Option.some (PyObj.dict kvs) => kvs
  | _ => []

/-- The `Action(...)` constructed for one discovered record (lines 309-324):
fresh generated id, the owning package id, `enabled=True`, and
`is_consequential` extracted from the optional options mapping (the dataclass
types it `Optional[bool]`).  `filepath` is the source path after the
filesystem-dependent relativization of lines 303-307. -/
def buildAction (gen_id : String) (action_package_id : String) (filepath : String)
    (action_fields : DiscoveredFields) : Action :=
  { id := gen_id
    action_package_id := action_package_id
    name := action_fields.name
    docs := action_fields.docs
    file := filepath
    lineno := action_fields.line
    input_schema := jsonDumps action_fields.input_schema
    output_schema := jsonDumps action_fields.output_schema
    enabled := true
    is_consequential :=
      match pyDictGet (optionsOrEmpty action_fields.options) "is_consequential" with
      | Option.some (PyObj.bool b) => Option.some b
      | _ => Option.none }

/-! ## Machinery: componentwise effect of write lists -/

def applyPList (ps : List ActionPackage) (ws : List Write) : List ActionPackage :=
  ws.foldl (fun ps w => w.applyP ps) ps

def applyAList (as : List Action) (ws : List Write) : List Action :=
  ws.foldl (fun as w => w.applyA as) as

theorem applyWrites_components (db : Db) (ws : List Write) :
    applyWrites db ws = ⟨applyPList db.action_packages ws, applyAList db.actions ws⟩ := by
  induction ws generalizing db with
  | nil => simp [applyWrites, applyPList, applyAList]
  | cons w ws ih =>
      simpa [applyWrites, applyPList, applyAList, List.foldl_cons] using ih (applyWrite db w)

/-- The per-row effect of the update writes of a write list (inserts and
package writes act as the identity on a given action row). -/
def updChainA (ws : List Write) (r : Action) : Action :=
  ws.foldl
    (fun r w =>
      match w with
      | Write.updateActionById i f => if r.id == i then { f with id := r.id } else r
      | Write.disableActionById i => if r.id == i then { r with enabled := false } else r
      | _ => r)
    r

/-- The rows a write list inserts into the action table, in order. -/
def insertsOfA (ws : List Write) : List Action :=
  ws.filterMap
    (fun w => match w with | Write.insertAction a => Option.some a | _ => Option.none)

/-- The ids the update writes of a write list target. -/
def updTargetsA (ws : List Write) : List String :=
  ws.filterMap
    (fun w =>
      match w with
      | Write.updateActionById i _ => Option.some i
      | Write.disableActionById i => Option.some i
      | _ => Option.none)

/-- A write that does not touch the `action_package` table. -/
def Write.noPkgEffect : Write → Prop
  | Write.insertPackage _ => False
  | Write.updatePackageById _ _ => False
  | _ => True

theorem applyPList_of_noPkgEffect (ps : List ActionPackage) (ws : List Write)
    (h : ∀ w ∈ ws, w.noPkgEffect) : applyPList ps ws = ps := by
  induction ws generalizing ps with
  | nil => rfl
  | cons w ws ih =>
      have hw := h w (List.mem_cons_self _ _)
      have hrest : ∀ w ∈ ws, w.noPkgEffect := fun w hmem => h w (List.mem_cons_of_mem _ hmem)
      cases w <;> simp [Write.noPkgEffect] at hw <;>
        simpa [applyPList, Write.applyP] using ih _ hrest

theorem updTargetsA_nil : updTargetsA [] = [] := rfl

theorem updTargetsA_insertPackage (p : ActionPackage) (ws : List Write) :
    updTargetsA (Write.insertPackage p :: ws) = updTargetsA ws := rfl

theorem updTargetsA_insertAction (a : Action) (ws : List Write) :
    updTargetsA (Write.insertAction a :: ws) = updTargetsA ws := rfl

theorem updTargetsA_updatePackageById (i : String) (f : ActionPackage) (ws : List Write) :
    updTargetsA (Write.updatePackageById i f :: ws) = updTargetsA ws := rfl

theorem updTargetsA_updateActionById (i : String) (f : Action) (ws : List Write) :
    updTargetsA (Write.updateActionById i f :: ws) = i :: updTargetsA ws := rfl

theorem updTargetsA_disableActionById (i : String) (ws : List Write) :
    updTargetsA (Write.disableActionById i :: ws) = i :: updTargetsA ws := rfl

theorem insertsOfA_nil : insertsOfA [] = [] := rfl

theorem insertsOfA_insertPackage (p : ActionPackage) (ws : List Write) :
    insertsOfA (Write.insertPackage p :: ws) = insertsOfA ws := rfl

theorem insertsOfA_insertAction (a : Action) (ws : List Write) :
    insertsOfA (Write.insertAction a :: ws) = a :: insertsOfA ws := rfl

theorem insertsOfA_updatePackageById (i : String) (f : ActionPackage) (ws : List Write) :
    insertsOfA (Write.updatePackageById i f :: ws) = insertsOfA ws := rfl

theorem insertsOfA_updateActionById (i : String) (f : Action) (ws : List Write) :
    insertsOfA (Write.updateActionById i f :: ws) = insertsOfA ws := rfl

theorem insertsOfA_disableActionById (i : String) (ws : List Write) :
    insertsOfA (Write.disableActionById i :: ws) = insertsOfA ws := rfl

theorem updChainA_id_preserved (ws : List Write) (r : Action) :
    (updChainA ws r).id = r.id := by
  induction ws generalizing r with
  | nil => rfl
  | cons w ws ih =>
      cases w with
      | insertPackage p => exact ih r
      | insertAction a => exact ih r
      | updatePackageById i f => exact ih r
      | updateActionById i f =>
          simp only [updChainA, List.foldl_cons]
          split
          · exact ih _
          · exact ih r
      | disableActionById i =>
          simp only [updChainA, List.foldl_cons]
          split
          · exact ih _
          · exact ih r

theorem updChainA_not_targeted (ws : List Write) (r : Action)
    (h : r.id ∉ updTargetsA ws) : updChainA ws r = r := by
  induction ws generalizing r with
  | nil => rfl
  | cons w ws ih =>
      cases w with
      | insertPackage p => exact ih r (by rwa [updTargetsA_insertPackage] at h)
      | insertAction a => exact ih r (by rwa [updTargetsA_insertAction] at h)
      | updatePackageById i f => exact ih r (by rwa [updTargetsA_updatePackageById] at h)
      | updateActionById i f =>
          rw [updTargetsA_updateActionById, List.mem_cons] at h
          push_neg at h
          simp only [updChainA, List.foldl_cons]
          rw [if_neg (by simpa using h.1)]
          exact ih r h.2
      | disableActionById i =>
          rw [updTargetsA_disableActionById, List.mem_cons] at h
          push_neg at h
          simp only [updChainA, List.foldl_cons]
          rw [if_neg (by simpa using h.1)]
          exact ih r h.2

/-- Characterization of a write list's effect on the action table: when no
inserted row's id is targeted by an update of the same list, the result is the
original rows each passed through the update chain, followed by the inserted
rows untouched. -/
theorem applyAList_char (ws : List Write) (as : List Action)
    (h : ∀ a ∈ insertsOfA ws, a.id ∉ updTargetsA ws) :
    applyAList as ws = as.map (updChainA ws) ++ insertsOfA ws := by
  induction ws generalizing as with
  | nil =>
      have hmap : as.map (updChainA []) = as.map id := List.map_congr_left (fun r _ => rfl)
      simp [applyAList, insertsOfA_nil, hmap]
  | cons w ws ih =>
      cases w with
      | insertPackage p =>
          have hrest : ∀ a ∈ insertsOfA ws, a.id ∉ updTargetsA ws := by
            intro a ha
            have := h a (by rwa [insertsOfA_insertPackage])
            rwa [updTargetsA_insertPackage] at this
          have hchain : as.map (updChainA ws) =
              as.map (updChainA (Write.insertPackage p :: ws)) :=
            List.map_congr_left (fun r _ => rfl)
          rw [insertsOfA_insertPackage, ← hchain]
          simpa [applyAList, Write.applyA] using ih as hrest
      | updatePackageById i f =>
          have hrest : ∀ a ∈ insertsOfA ws, a.id ∉ updTargetsA ws := by
            intro a ha
            have := h a (by rwa [insertsOfA_updatePackageById])
            rwa [updTargetsA_updatePackageById] at this
          have hchain : as.map (updChainA ws) =
              as.map (updChainA (Write.updatePackageById i f :: ws)) :=
            List.map_congr_left (fun r _ => rfl)
          rw [insertsOfA_updatePackageById, ← hchain]
          simpa [applyAList, Write.applyA] using ih as hrest
      | insertAction a =>
          have hmem : a ∈ insertsOfA (Write.insertAction a :: ws) := by
            rw [insertsOfA_insertAction]; exact List.mem_cons_self _ _
          have hanot : a.id ∉ updTargetsA ws := by
            have := h a hmem
            rwa [updTargetsA_insertAction] at this
          have hrest : ∀ b ∈ insertsOfA ws, b.id ∉ updTargetsA ws := by
            intro b hb
            have := h b (by rw [insertsOfA_insertAction]; exact List.mem_cons_of_mem _ hb)
            rwa [updTargetsA_insertAction] at this
          have hchain : as.map (updChainA ws) =
              as.map (updChainA (Write.insertAction a :: ws)) :=
            List.map_congr_left (fun r _ => rfl)
          calc applyAList as (Write.insertAction a :: ws)
              = applyAList (as ++ [a]) ws := by simp [applyAList, Write.applyA]
            _ = (as ++ [a]).map (updChainA ws) ++ insertsOfA ws := ih _ hrest
            _ = as.map (updChainA ws) ++ ([updChainA ws a] ++ insertsOfA ws) := by
                  simp [List.map_append]
            _ = as.map (updChainA (Write.insertAction a :: ws)) ++
                  insertsOfA (Write.insertAction a :: ws) := by
                  rw [← hchain, updChainA_not_targeted ws a hanot, insertsOfA_insertAction]
                  rfl
      | updateActionById i f =>
          have hrest : ∀ b ∈ insertsOfA ws, b.id ∉ updTargetsA ws := by
            intro b hb
            have := h b (by rwa [insertsOfA_updateActionById])
            rw [updTargetsA_updateActionById] at this
            exact fun hm => this (List.mem_cons_of_mem _ hm)
          have step :
              applyAList as (Write.updateActionById i f :: ws) =
                applyAList (as.map (fun r => if r.id == i then { f with id := r.id } else r)) ws := by
            simp [applyAList, Write.applyA]
          have hchain :
              (as.map (fun r => if r.id == i then { f with id := r.id } else r)).map (updChainA ws) =
                as.map (updChainA (Write.updateActionById i f :: ws)) := by
            rw [List.map_map]
            exact List.map_congr_left (fun r _ => rfl)
          rw [step, ih _ hrest, hchain, insertsOfA_updateActionById]
      | disableActionById i =>
          have hrest : ∀ b ∈ insertsOfA ws, b.id ∉ updTargetsA ws := by
            intro b hb
            have := h b (by rwa [insertsOfA_disableActionById])
            rw [updTargetsA_disableActionById] at this
            exact fun hm => this (List.mem_cons_of_mem _ hm)
          have step :
              applyAList as (Write.disableActionById i :: ws) =
                applyAList (as.map (fun r => if r.id == i then { r with enabled := false } else r)) ws := by
            simp [applyAList, Write.applyA]
          have hchain :
              (as.map (fun r => if r.id == i then { r with enabled := false } else r)).map (updChainA ws) =
                as.map (updChainA (Write.disableActionById i :: ws)) := by
            rw [List.map_map]
            exact List.map_congr_left (fun r _ => rfl)
          rw [step, ih _ hrest, hchain, insertsOfA_disableActionById]

/-! ## Machinery: row lookup helpers -/

/-- Lookup of the (first) row with a given id, the row an `update_by_id`
addresses. -/
def findById (as : List Action) (i : String) : Option Action :=
  as.find? (fun a => a.id == i)

theorem findById_map (as : List Action) (f : Action → Action) (i : String)
    (hf : ∀ r, (f r).id = r.id) :
    findById (as.map f) i = (findById as i).map f := by
  unfold findById
  rw [List.find?_map]
  have hp : ((fun a => a.id == i) ∘ f) = (fun a : Action => a.id == i) :=
    funext fun a => by simp [Function.comp, hf a]
  rw [hp]

theorem findById_append (as bs : List Action) (i : String) :
    findById (as ++ bs) i = (findById as i).or (findById bs i) :=
  List.find?_append

theorem findById_self (a : Action) (as : List Action) (ha : a ∈ as)
    (hnd : (as.map (fun x => x.id)).Nodup) : findById as a.id = Option.some a := by
  induction as with
  | nil => cases ha
  | cons b as ih =>
      rw [List.map_cons, List.nodup_cons] at hnd
      rcases List.mem_cons.mp ha with rfl | hmem
      · unfold findById
        rw [List.find?_cons_of_pos _ (by simp)]
      · have hbne : b.id ≠ a.id := fun he => hnd.1 (he ▸ List.mem_map_of_mem _ hmem)
        unfold findById
        rw [List.find?_cons_of_neg _ (by simpa using hbne)]
        exact ih hmem hnd.2

theorem runTransaction_commit (db : Db) (ws : List Write) :
    runTransaction db ws Option.none = (applyWrites db ws, true) := rfl

theorem runTransaction_rollback (db : Db) (ws : List Write) (failAt : Option Nat)
    (h : (runTransaction db ws failAt).2 = false) :
    (runTransaction db ws failAt).1 = db := by
  cases failAt with
  | none => simp [runTransaction] at h
  | some k =>
      by_cases hk : k < ws.length
      · simp [runTransaction, hk]
      · simp [runTransaction, hk] at h

/-! ## Machinery: the shape of the reconciler's write lists -/

/-- The write `actionLoop` issues for one discovered action. -/
def settledWrite (existingPackageId : String) (nm : List Action) (a : Action) : Write :=
  match pyDictGetByName nm a.name with
  | Option.some ex => Write.updateActionById ex.id { a with action_package_id := existingPackageId }
  | Option.none => Write.insertAction { a with action_package_id := existingPackageId }

/-- The id `actionLoop` marks seen for one discovered action. -/
def seenIdOf (nm : List Action) (a : Action) : String :=
  match pyDictGetByName nm a.name with
  | Option.some ex => ex.id
  | Option.none => a.id

theorem actionLoop_eq (existingPackageId : String) (nm : List Action) (as : List Action) :
    actionLoop existingPackageId nm as =
      (as.map (settledWrite existingPackageId nm), as.map (seenIdOf nm)) := by
  induction as with
  | nil => rfl
  | cons a as ih =>
      cases h : pyDictGetByName nm a.name with
      | none => simp [actionLoop, ih, h, settledWrite, seenIdOf]
      | some ex => simp [actionLoop, ih, h, settledWrite, seenIdOf]

theorem pyDictGetByName_mem {l : List Action} {n : String} {ex : Action}
    (h : pyDictGetByName l n = Option.some ex) : ex ∈ l ∧ ex.name = n := by
  unfold pyDictGetByName at h
  refine ⟨List.mem_reverse.mp (List.mem_of_find?_eq_some h), ?_⟩
  have := List.find?_some h
  simpa using this

theorem pyDictGetByName_eq_none {l : List Action} {n : String} :
    pyDictGetByName l n = Option.none ↔ ∀ a ∈ l, a.name ≠ n := by
  unfold pyDictGetByName
  rw [List.find?_eq_none]
  constructor
  · intro h a ha
    have := h a (List.mem_reverse.mpr ha)
    simpa using this
  · intro h a ha
    have := h a (List.mem_reverse.mp ha)
    simpa using this

theorem pyDictGetByName_map (l : List Action) (f : Action → Action) (n : String)
    (hf : ∀ r, (f r).name = r.name) :
    pyDictGetByName (l.map f) n = (pyDictGetByName l n).map f := by
  unfold pyDictGetByName
  rw [← List.map_reverse, List.find?_map]
  have hp : ((fun a => a.name == n) ∘ f) = (fun a : Action => a.name == n) :=
    funext fun a => by simp [Function.comp, hf a]
  rw [hp]

theorem pyDictGetByName_append (l1 l2 : List Action) (n : String) :
    pyDictGetByName (l1 ++ l2) n = (pyDictGetByName l2 n).or (pyDictGetByName l1 n) := by
  unfold pyDictGetByName
  rw [List.reverse_append, List.find?_append]

theorem applyAList_all_inserts (as0 as : List Action) :
    applyAList as0 (as.map Write.insertAction) = as0 ++ as := by
  induction as generalizing as0 with
  | nil => simp [applyAList]
  | cons a as ih =>
      calc applyAList as0 (Write.insertAction a :: as.map Write.insertAction)
          = applyAList (as0 ++ [a]) (as.map Write.insertAction) := by
            simp [applyAList, Write.applyA]
        _ = (as0 ++ [a]) ++ as := ih _
        _ = as0 ++ (a :: as) := by simp

/-- The full effect of the insert branch's transaction (lines 335-340). -/
theorem applyWrites_insert_branch (db : Db) (p : ActionPackage) (as : List Action) :
    applyWrites db (Write.insertPackage p :: as.map Write.insertAction) =
      ⟨db.action_packages ++ [p], db.actions ++ as⟩ := by
  rw [applyWrites_components]
  have hP : applyPList db.action_packages (Write.insertPackage p :: as.map Write.insertAction) =
      db.action_packages ++ [p] := by
    have : applyPList (db.action_packages ++ [p]) (as.map Write.insertAction) =
        db.action_packages ++ [p] := by
      refine applyPList_of_noPkgEffect _ _ ?_
      intro w hw
      obtain ⟨a, _, rfl⟩ := List.mem_map.mp hw
      trivial
    simpa [applyPList, Write.applyP] using this
  have hA : applyAList db.actions (Write.insertPackage p :: as.map Write.insertAction) =
      db.actions ++ as := by
    have : applyAList db.actions (as.map Write.insertAction) = db.actions ++ as :=
      applyAList_all_inserts _ _
    simpa [applyAList, Write.applyA] using this
  rw [hP, hA]

/-! ## Machinery: member-wise map commutation -/

theorem find?_map_local {α : Type} (l : List α) (f : α → α) (p : α → Bool)
    (h : ∀ x ∈ l, p (f x) = p x) :
    (l.map f).find? p = (l.find? p).map f := by
  induction l with
  | nil => rfl
  | cons x l ih =>
      by_cases hx : p x
      · rw [List.map_cons, List.find?_cons_of_pos _ (by rw [h x (List.mem_cons_self _ _)]; exact hx),
          List.find?_cons_of_pos _ hx]
        rfl
      · rw [List.map_cons,
          List.find?_cons_of_neg _ (by rw [h x (List.mem_cons_self _ _)]; exact hx),
          List.find?_cons_of_neg _ hx]
        exact ih (fun x hx => h x (List.mem_cons_of_mem _ hx))

theorem filter_map_local {α : Type} (l : List α) (f : α → α) (p : α → Bool)
    (h : ∀ x ∈ l, p (f x) = p x) :
    (l.map f).filter p = (l.filter p).map f := by
  induction l with
  | nil => rfl
  | cons x l ih =>
      have hrest := ih (fun x hx => h x (List.mem_cons_of_mem _ hx))
      by_cases hx : p x
      · rw [List.map_cons, List.filter_cons_of_pos (by rw [h x (List.mem_cons_self _ _)]; exact hx),
          List.filter_cons_of_pos hx, List.map_cons, hrest]
      · rw [List.map_cons,
          List.filter_cons_of_neg (by rw [h x (List.mem_cons_self _ _)]; exact hx),
          List.filter_cons_of_neg hx, hrest]

theorem pyDictGetByName_map_local (l : List Action) (f : Action → Action) (n : String)
    (h : ∀ r ∈ l, (f r).name = r.name) :
    pyDictGetByName (l.map f) n = (pyDictGetByName l n).map f := by
  unfold pyDictGetByName
  rw [← List.map_reverse]
  exact find?_map_local _ _ _ (fun r hr => by
    rw [h r (List.mem_reverse.mp hr)])

/-! ## Machinery: the update branch's write list -/

/-- All the writes of one update-branch transaction (lines 362-392), as
`addActionsToDb` issues them: the package update, the per-discovered-action
updates/inserts, then the disable pass. -/
def updateBranchWrites (db : Db) (action_package : ActionPackage) (actions : List Action)
    (disable_not_imported : Bool) (E : ActionPackage) : List Write :=
  let existing_actions := db.actions.filter (fun a => a.action_package_id == E.id)
  let seen := actions.map (seenIdOf existing_actions)
  Write.updatePackageById E.id action_package ::
    (actions.map (settledWrite E.id existing_actions) ++
      (if disable_not_imported then
        (db.actions.filter (fun a => !(seen.contains a.id))).map
          (fun a => Write.disableActionById a.id)
      else []))

theorem addActionsToDb_insert_branch (db : Db) (pkg : ActionPackage) (actions : List Action)
    (dis : Bool) (failAt : Option Nat)
    (hfind : db.action_packages.find? (fun p => p.name == pkg.name) = Option.none) :
    addActionsToDb db pkg actions dis failAt =
      runTransaction db (Write.insertPackage pkg :: actions.map Write.insertAction) failAt := by
  unfold addActionsToDb
  rw [hfind]

theorem addActionsToDb_update_branch (db : Db) (pkg : ActionPackage) (actions : List Action)
    (dis : Bool) (failAt : Option Nat) (E : ActionPackage)
    (hfind : db.action_packages.find? (fun p => p.name == pkg.name) = Option.some E) :
    addActionsToDb db pkg actions dis failAt =
      runTransaction db (updateBranchWrites db pkg actions dis E) failAt := by
  unfold addActionsToDb updateBranchWrites
  simp only [hfind, actionLoop_eq]

theorem importSeenIds_update_branch (db : Db) (pkg : ActionPackage) (actions : List Action)
    (E : ActionPackage)
    (hfind : db.action_packages.find? (fun p => p.name == pkg.name) = Option.some E) :
    importSeenIds db pkg actions =
      actions.map (seenIdOf (db.actions.filter (fun a => a.action_package_id == E.id))) := by
  unfold importSeenIds
  simp only [hfind, actionLoop_eq]

theorem noPkgEffect_settled (E : String) (nm : List Action) (as : List Action) :
    ∀ w ∈ as.map (settledWrite E nm), w.noPkgEffect := by
  intro w hw
  obtain ⟨a, _, rfl⟩ := List.mem_map.mp hw
  unfold settledWrite
  cases pyDictGetByName nm a.name <;> trivial

theorem noPkgEffect_disables (l : List Action) :
    ∀ w ∈ l.map (fun a => Write.disableActionById a.id), w.noPkgEffect := by
  intro w hw
  obtain ⟨a, _, rfl⟩ := List.mem_map.mp hw
  trivial

theorem insertsOfA_settled (E : String) (nm : List Action) (as : List Action) :
    insertsOfA (as.map (settledWrite E nm)) =
      (as.filter (fun a => (pyDictGetByName nm a.name).isNone)).map
        (fun a => { a with action_package_id := E }) := by
  induction as with
  | nil => rfl
  | cons a as ih =>
      cases h : pyDictGetByName nm a.name with
      | none =>
          rw [List.map_cons, show settledWrite E nm a = Write.insertAction { a with action_package_id := E } by
              unfold settledWrite; rw [h],
            insertsOfA_insertAction, List.filter_cons_of_pos (by rw [h]; rfl), List.map_cons, ih]
      | some ex =>
          rw [List.map_cons, show settledWrite E nm a =
                Write.updateActionById ex.id { a with action_package_id := E } by
              unfold settledWrite; rw [h],
            insertsOfA_updateActionById, List.filter_cons_of_neg (by rw [h]; simp), ih]

theorem updTargetsA_settled (E : String) (nm : List Action) (as : List Action) :
    updTargetsA (as.map (settledWrite E nm)) =
      as.filterMap (fun a => (pyDictGetByName nm a.name).map (fun ex => ex.id)) := by
  induction as with
  | nil => rfl
  | cons a as ih =>
      cases h : pyDictGetByName nm a.name with
      | none =>
          rw [List.map_cons, show settledWrite E nm a = Write.insertAction { a with action_package_id := E } by
              unfold settledWrite; rw [h],
            updTargetsA_insertAction, ih, List.filterMap_cons_none (by rw [h]; rfl)]
      | some ex =>
          rw [List.map_cons, show settledWrite E nm a =
                Write.updateActionById ex.id { a with action_package_id := E } by
              unfold settledWrite; rw [h],
            updTargetsA_updateActionById, ih, List.filterMap_cons_some (by rw [h]; rfl)]

theorem insertsOfA_disables (l : List Action) :
    insertsOfA (l.map (fun a => Write.disableActionById a.id)) = [] := by
  induction l with
  | nil => rfl
  | cons a l ih => rw [List.map_cons, insertsOfA_disableActionById, ih]

theorem updTargetsA_disables (l : List Action) :
    updTargetsA (l.map (fun a => Write.disableActionById a.id)) = l.map (fun a => a.id) := by
  induction l with
  | nil => rfl
  | cons a l ih => rw [List.map_cons, updTargetsA_disableActionById, ih, List.map_cons]

theorem insertsOfA_append (ws1 ws2 : List Write) :
    insertsOfA (ws1 ++ ws2) = insertsOfA ws1 ++ insertsOfA ws2 :=
  List.filterMap_append _ _ _

theorem updTargetsA_append (ws1 ws2 : List Write) :
    updTargetsA (ws1 ++ ws2) = updTargetsA ws1 ++ updTargetsA ws2 :=
  List.filterMap_append _ _ _

theorem updChainA_append (ws1 ws2 : List Write) (r : Action) :
    updChainA (ws1 ++ ws2) r = updChainA ws2 (updChainA ws1 r) :=
  List.foldl_append _ _ _ _

/-! ## Machinery: per-row facts about the chains -/

theorem eq_of_mem_of_id_eq {l : List Action} {x y : Action}
    (hx : x ∈ l) (hy : y ∈ l) (hnd : (l.map (fun a => a.id)).Nodup)
    (h : x.id = y.id) : x = y :=
  List.inj_on_of_nodup_map hnd hx hy h

theorem updChainA_all_disables (ids : List String) (r : Action) :
    updChainA (ids.map Write.disableActionById) r =
      if r.id ∈ ids then { r with enabled := false } else r := by
  induction ids generalizing r with
  | nil => simp [updChainA]
  | cons i ids ih =>
      by_cases hi : r.id = i
      · have step : updChainA ((i :: ids).map Write.disableActionById) r =
            updChainA (ids.map Write.disableActionById) { r with enabled := false } := by
          simp only [List.map_cons, updChainA, List.foldl_cons]
          rw [if_pos (by simpa using hi)]
        rw [step, ih, if_pos (show r.id ∈ i :: ids by rw [hi]; exact List.mem_cons_self _ _)]
        split <;> rfl
      · have step : updChainA ((i :: ids).map Write.disableActionById) r =
            updChainA (ids.map Write.disableActionById) r := by
          simp only [List.map_cons, updChainA, List.foldl_cons]
          rw [if_neg (by simpa using hi)]
        rw [step, ih]
        by_cases hm : r.id ∈ ids
        · rw [if_pos hm, if_pos (List.mem_cons_of_mem _ hm)]
        · rw [if_neg hm, if_neg (by rw [List.mem_cons]; push_neg; exact ⟨hi, hm⟩)]

theorem settledWrite_of_some {E : String} {nm : List Action} {a ex : Action}
    (h : pyDictGetByName nm a.name = Option.some ex) :
    settledWrite E nm a = Write.updateActionById ex.id { a with action_package_id := E } := by
  unfold settledWrite
  rw [h]

theorem settledWrite_of_none {E : String} {nm : List Action} {a : Action}
    (h : pyDictGetByName nm a.name = Option.none) :
    settledWrite E nm a = Write.insertAction { a with action_package_id := E } := by
  unfold settledWrite
  rw [h]

theorem seenIdOf_of_some {nm : List Action} {a ex : Action}
    (h : pyDictGetByName nm a.name = Option.some ex) : seenIdOf nm a = ex.id := by
  unfold seenIdOf
  rw [h]

theorem seenIdOf_of_none {nm : List Action} {a : Action}
    (h : pyDictGetByName nm a.name = Option.none) : seenIdOf nm a = a.id := by
  unfold seenIdOf
  rw [h]

theorem updChainA_settled_keeps_enabled (E : String) (nm : List Action) (as : List Action)
    (hen : ∀ a ∈ as, a.enabled = true) (r : Action) (hr : r.enabled = true) :
    (updChainA (as.map (settledWrite E nm)) r).enabled = true := by
  induction as generalizing r with
  | nil => exact hr
  | cons a as ih =>
      have ha := hen a (List.mem_cons_self _ _)
      have hrest : ∀ b ∈ as, b.enabled = true := fun b hb => hen b (List.mem_cons_of_mem _ hb)
      cases h : pyDictGetByName nm a.name with
      | none =>
          have step : updChainA ((a :: as).map (settledWrite E nm)) r =
              updChainA (as.map (settledWrite E nm)) r := by
            simp only [List.map_cons, settledWrite_of_none h, updChainA, List.foldl_cons]
          rw [step]
          exact ih hrest r hr
      | some ex =>
          by_cases hid : r.id = ex.id
          · have step : updChainA ((a :: as).map (settledWrite E nm)) r =
                updChainA (as.map (settledWrite E nm))
                  { a with action_package_id := E, id := r.id } := by
              simp only [List.map_cons, settledWrite_of_some h, updChainA, List.foldl_cons]
              rw [if_pos (by simpa using hid)]
            rw [step]
            exact ih hrest _ ha
          · have step : updChainA ((a :: as).map (settledWrite E nm)) r =
                updChainA (as.map (settledWrite E nm)) r := by
              simp only [List.map_cons, settledWrite_of_some h, updChainA, List.foldl_cons]
              rw [if_neg (by simpa using hid)]
            rw [step]
            exact ih hrest r hr

theorem updChainA_settled_enabled_of_targeted (E : String) (nm : List Action) (as : List Action)
    (hen : ∀ a ∈ as, a.enabled = true) (r : Action)
    (ht : r.id ∈ updTargetsA (as.map (settledWrite E nm))) :
    (updChainA (as.map (settledWrite E nm)) r).enabled = true := by
  induction as generalizing r with
  | nil => cases ht
  | cons a as ih =>
      have ha := hen a (List.mem_cons_self _ _)
      have hrest : ∀ b ∈ as, b.enabled = true := fun b hb => hen b (List.mem_cons_of_mem _ hb)
      cases h : pyDictGetByName nm a.name with
      | none =>
          have step : updChainA ((a :: as).map (settledWrite E nm)) r =
              updChainA (as.map (settledWrite E nm)) r := by
            simp only [List.map_cons, settledWrite_of_none h, updChainA, List.foldl_cons]
          have ht2 : r.id ∈ updTargetsA (as.map (settledWrite E nm)) := by
            rw [List.map_cons, settledWrite_of_none h, updTargetsA_insertAction] at ht
            exact ht
          rw [step]
          exact ih hrest r ht2
      | some ex =>
          by_cases hid : r.id = ex.id
          · have step : updChainA ((a :: as).map (settledWrite E nm)) r =
                updChainA (as.map (settledWrite E nm))
                  { a with action_package_id := E, id := r.id } := by
              simp only [List.map_cons, settledWrite_of_some h, updChainA, List.foldl_cons]
              rw [if_pos (by simpa using hid)]
            rw [step]
            exact updChainA_settled_keeps_enabled E nm as hrest _ ha
          · have step : updChainA ((a :: as).map (settledWrite E nm)) r =
                updChainA (as.map (settledWrite E nm)) r := by
              simp only [List.map_cons, settledWrite_of_some h, updChainA, List.foldl_cons]
              rw [if_neg (by simpa using hid)]
            have ht2 : r.id ∈ updTargetsA (as.map (settledWrite E nm)) := by
              rw [List.map_cons, settledWrite_of_some h, updTargetsA_updateActionById,
                List.mem_cons] at ht
              exact ht.resolve_left hid
            rw [step]
            exact ih hrest r ht2

theorem updChainA_settled_name (E : String) (nm : List Action) (as : List Action)
    (rid rname : String)
    (h : ∀ a ∈ as, ∀ ex, pyDictGetByName nm a.name = Option.some ex → ex.id = rid →
      ex.name = rname) :
    ∀ r2 : Action, r2.id = rid → r2.name = rname →
      (updChainA (as.map (settledWrite E nm)) r2).name = rname := by
  induction as with
  | nil => intro r2 _ hname; exact hname
  | cons a as ih =>
      intro r2 hid hname
      have hrest : ∀ a2 ∈ as, ∀ ex, pyDictGetByName nm a2.name = Option.some ex → ex.id = rid →
          ex.name = rname := fun a2 ha2 => h a2 (List.mem_cons_of_mem _ ha2)
      cases hl : pyDictGetByName nm a.name with
      | none =>
          have step : updChainA ((a :: as).map (settledWrite E nm)) r2 =
              updChainA (as.map (settledWrite E nm)) r2 := by
            simp only [List.map_cons, settledWrite_of_none hl, updChainA, List.foldl_cons]
          rw [step]
          exact ih hrest r2 hid hname
      | some ex =>
          by_cases hq : r2.id = ex.id
          · have hexid : ex.id = rid := by rw [← hq, hid]
            have hexname : ex.name = rname := h a (List.mem_cons_self _ _) ex hl hexid
            have haname : a.name = rname := by
              rw [← (pyDictGetByName_mem hl).2, hexname]
            have step : updChainA ((a :: as).map (settledWrite E nm)) r2 =
                updChainA (as.map (settledWrite E nm))
                  { a with action_package_id := E, id := r2.id } := by
              simp only [List.map_cons, settledWrite_of_some hl, updChainA, List.foldl_cons]
              rw [if_pos (by simpa using hq)]
            rw [step]
            exact ih hrest _ hid haname
          · have step : updChainA ((a :: as).map (settledWrite E nm)) r2 =
                updChainA (as.map (settledWrite E nm)) r2 := by
              simp only [List.map_cons, settledWrite_of_some hl, updChainA, List.foldl_cons]
              rw [if_neg (by simpa using hq)]
            rw [step]
            exact ih hrest r2 hid hname

theorem updChainA_settled_pkgid (E : String) (nm : List Action) (as : List Action)
    (rid rpk : String)
    (h : ∀ a ∈ as, ∀ ex, pyDictGetByName nm a.name = Option.some ex → ex.id = rid → E = rpk) :
    ∀ r2 : Action, r2.id = rid → r2.action_package_id = rpk →
      (updChainA (as.map (settledWrite E nm)) r2).action_package_id = rpk := by
  induction as with
  | nil => intro r2 _ hpk; exact hpk
  | cons a as ih =>
      intro r2 hid hpk
      have hrest : ∀ a2 ∈ as, ∀ ex, pyDictGetByName nm a2.name = Option.some ex → ex.id = rid →
          E = rpk := fun a2 ha2 => h a2 (List.mem_cons_of_mem _ ha2)
      cases hl : pyDictGetByName nm a.name with
      | none =>
          have step : updChainA ((a :: as).map (settledWrite E nm)) r2 =
              updChainA (as.map (settledWrite E nm)) r2 := by
            simp only [List.map_cons, settledWrite_of_none hl, updChainA, List.foldl_cons]
          rw [step]
          exact ih hrest r2 hid hpk
      | some ex =>
          by_cases hq : r2.id = ex.id
          · have hexid : ex.id = rid := by rw [← hq, hid]
            have hEpk : E = rpk := h a (List.mem_cons_self _ _) ex hl hexid
            have step : updChainA ((a :: as).map (settledWrite E nm)) r2 =
                updChainA (as.map (settledWrite E nm))
                  { a with action_package_id := E, id := r2.id } := by
              simp only [List.map_cons, settledWrite_of_some hl, updChainA, List.foldl_cons]
              rw [if_pos (by simpa using hq)]
            rw [step]
            exact ih hrest _ hid hEpk
          · have step : updChainA ((a :: as).map (settledWrite E nm)) r2 =
                updChainA (as.map (settledWrite E nm)) r2 := by
              simp only [List.map_cons, settledWrite_of_some hl, updChainA, List.foldl_cons]
              rw [if_neg (by simpa using hq)]
            rw [step]
            exact ih hrest r2 hid hpk

/-- The unique hit: with pairwise-distinct discovered names and unique ids
among the existing rows, the row `ex` matched by the discovered action `a`
ends up carrying exactly `a`'s fields (id preserved, package set). -/
theorem updChainA_settled_hit (E : String) (nm : List Action) (as : List Action)
    (hnames : (as.map (fun x => x.name)).Nodup)
    (hnmids : (nm.map (fun x => x.id)).Nodup)
    (a : Action) (ha : a ∈ as) (ex : Action)
    (hlook : pyDictGetByName nm a.name = Option.some ex)
    (r : Action) (hr : r.id = ex.id) :
    updChainA (as.map (settledWrite E nm)) r =
      { a with action_package_id := E, id := r.id } := by
  induction as generalizing r with
  | nil => cases ha
  | cons b as ih =>
      rw [List.map_cons, List.nodup_cons] at hnames
      rcases List.mem_cons.mp ha with rfl | hmem
      · have step : updChainA ((a :: as).map (settledWrite E nm)) r =
            updChainA (as.map (settledWrite E nm))
              { a with action_package_id := E, id := r.id } := by
          simp only [List.map_cons, settledWrite_of_some hlook, updChainA, List.foldl_cons]
          rw [if_pos (by simpa using hr)]
        rw [step]
        have hnotarget : ({ a with action_package_id := E, id := r.id } : Action).id ∉
            updTargetsA (as.map (settledWrite E nm)) := by
          rw [updTargetsA_settled]
          intro hmem2
          obtain ⟨b, hb, hbeq⟩ := List.mem_filterMap.mp hmem2
          cases hlb : pyDictGetByName nm b.name with
          | none => rw [hlb] at hbeq; cases hbeq
          | some ex2 =>
              rw [hlb] at hbeq
              have hex2id : ex2.id = r.id := by simpa using hbeq
              have hex2 : ex2 = ex :=
                eq_of_mem_of_id_eq (pyDictGetByName_mem hlb).1 (pyDictGetByName_mem hlook).1
                  hnmids (by rw [hex2id, hr])
              have : b.name = a.name := by
                rw [← (pyDictGetByName_mem hlb).2, hex2, (pyDictGetByName_mem hlook).2]
              exact hnames.1 (this ▸ List.mem_map_of_mem _ hb)
        rw [updChainA_not_targeted _ _ hnotarget]
      · cases hlb : pyDictGetByName nm b.name with
        | none =>
            have step : updChainA ((b :: as).map (settledWrite E nm)) r =
                updChainA (as.map (settledWrite E nm)) r := by
              simp only [List.map_cons, settledWrite_of_none hlb, updChainA, List.foldl_cons]
            rw [step]
            exact ih hnames.2 hmem r hr
        | some exb =>
            have hne : r.id ≠ exb.id := by
              intro he
              have hexb : exb = ex :=
                eq_of_mem_of_id_eq (pyDictGetByName_mem hlb).1 (pyDictGetByName_mem hlook).1
                  hnmids (by rw [← he, hr])
              have : b.name = a.name := by
                rw [← (pyDictGetByName_mem hlb).2, hexb, (pyDictGetByName_mem hlook).2]
              exact hnames.1 (this ▸ List.mem_map_of_mem _ hmem)
            have step : updChainA ((b :: as).map (settledWrite E nm)) r =
                updChainA (as.map (settledWrite E nm)) r := by
              simp only [List.map_cons, settledWrite_of_some hlb, updChainA, List.foldl_cons]
              rw [if_neg (by simpa using hne)]
            rw [step]
            exact ih hnames.2 hmem r hr

/-! ## Machinery: identity writes and id tracking -/

theorem applyWrites_id (db : Db) (ws : List Write)
    (h : ∀ w ∈ ws, applyWrite db w = db) : applyWrites db ws = db := by
  induction ws with
  | nil => rfl
  | cons w ws ih =>
      have hw := h w (List.mem_cons_self _ _)
      calc applyWrites db (w :: ws) = applyWrites (applyWrite db w) ws := rfl
        _ = applyWrites db ws := by rw [hw]
        _ = db := ih (fun w hw2 => h w (List.mem_cons_of_mem _ hw2))

theorem map_eq_self_of_mem {α : Type} (l : List α) (f : α → α)
    (h : ∀ x ∈ l, f x = x) : l.map f = l := by
  induction l with
  | nil => rfl
  | cons x l ih =>
      rw [List.map_cons, h x (List.mem_cons_self _ _),
        ih (fun x hx => h x (List.mem_cons_of_mem _ hx))]

theorem applyWrite_updatePackage_id (db : Db) (i : String) (f : ActionPackage)
    (h : ∀ r ∈ db.action_packages, r.id = i → { f with id := r.id } = r) :
    applyWrite db (Write.updatePackageById i f) = db := by
  have hP : Write.applyP (Write.updatePackageById i f) db.action_packages =
      db.action_packages := by
    show db.action_packages.map (fun r => if r.id == i then { f with id := r.id } else r) =
      db.action_packages
    refine map_eq_self_of_mem _ _ (fun r hr => ?_)
    by_cases hri : r.id = i
    · rw [if_pos (by simpa using hri)]
      exact h r hr hri
    · rw [if_neg (by simpa using hri)]
  have hA : Write.applyA (Write.updatePackageById i f) db.actions = db.actions := rfl
  unfold applyWrite
  rw [hP, hA]

theorem applyWrite_updateAction_id (db : Db) (i : String) (f : Action)
    (h : ∀ r ∈ db.actions, r.id = i → { f with id := r.id } = r) :
    applyWrite db (Write.updateActionById i f) = db := by
  have hA : Write.applyA (Write.updateActionById i f) db.actions = db.actions := by
    show db.actions.map (fun r => if r.id == i then { f with id := r.id } else r) = db.actions
    refine map_eq_self_of_mem _ _ (fun r hr => ?_)
    by_cases hri : r.id = i
    · rw [if_pos (by simpa using hri)]
      exact h r hr hri
    · rw [if_neg (by simpa using hri)]
  have hP : Write.applyP (Write.updateActionById i f) db.action_packages =
      db.action_packages := rfl
  unfold applyWrite
  rw [hP, hA]

theorem applyWrite_disable_id (db : Db) (i : String)
    (h : ∀ r ∈ db.actions, r.id = i → r.enabled = false) :
    applyWrite db (Write.disableActionById i) = db := by
  have hA : Write.applyA (Write.disableActionById i) db.actions = db.actions := by
    show db.actions.map (fun r => if r.id == i then { r with enabled := false } else r) =
      db.actions
    refine map_eq_self_of_mem _ _ (fun r hr => ?_)
    by_cases hri : r.id = i
    · rw [if_pos (by simpa using hri)]
      have := h r hr hri
      cases r
      simp_all
    · rw [if_neg (by simpa using hri)]
  have hP : Write.applyP (Write.disableActionById i) db.action_packages =
      db.action_packages := rfl
  unfold applyWrite
  rw [hP, hA]

/-- The packages a write list inserts. -/
def insertsOfP (ws : List Write) : List ActionPackage :=
  ws.filterMap
    (fun w => match w with | Write.insertPackage p => Option.some p | _ => Option.none)

theorem applyPList_ids (ps : List ActionPackage) (ws : List Write) :
    (applyPList ps ws).map (fun p => p.id) =
      ps.map (fun p => p.id) ++ (insertsOfP ws).map (fun p => p.id) := by
  induction ws generalizing ps with
  | nil => simp [applyPList, insertsOfP]
  | cons w ws ih =>
      cases w with
      | insertPackage p =>
          have : applyPList ps (Write.insertPackage p :: ws) = applyPList (ps ++ [p]) ws := by
            simp [applyPList, Write.applyP]
          rw [this, ih, List.map_append]
          simp [insertsOfP, List.filterMap_cons]
      | updatePackageById i f =>
          have : applyPList ps (Write.updatePackageById i f :: ws) =
              applyPList (ps.map (fun r => if r.id == i then { f with id := r.id } else r)) ws := by
            simp [applyPList, Write.applyP]
          rw [this, ih, List.map_map]
          have : ps.map ((fun p : ActionPackage => p.id) ∘
              (fun r => if r.id == i then { f with id := r.id } else r)) =
              ps.map (fun p => p.id) := by
            refine List.map_congr_left (fun r _ => ?_)
            by_cases hri : r.id = i
            · simp [Function.comp, hri]
            · simp [Function.comp, hri]
          rw [this]
          simp [insertsOfP, List.filterMap_cons]
      | insertAction a =>
          have : applyPList ps (Write.insertAction a :: ws) = applyPList ps ws := by
            simp [applyPList, Write.applyP]
          rw [this, ih]
          simp [insertsOfP, List.filterMap_cons]
      | updateActionById i f =>
          have : applyPList ps (Write.updateActionById i f :: ws) = applyPList ps ws := by
            simp [applyPList, Write.applyP]
          rw [this, ih]
          simp [insertsOfP, List.filterMap_cons]
      | disableActionById i =>
          have : applyPList ps (Write.disableActionById i :: ws) = applyPList ps ws := by
            simp [applyPList, Write.applyP]
          rw [this, ih]
          simp [insertsOfP, List.filterMap_cons]

theorem applyAList_ids (as : List Action) (ws : List Write) :
    (applyAList as ws).map (fun a => a.id) =
      as.map (fun a => a.id) ++ (insertsOfA ws).map (fun a => a.id) := by
  induction ws generalizing as with
  | nil => simp [applyAList, insertsOfA]
  | cons w ws ih =>
      cases w with
      | insertAction a =>
          have : applyAList as (Write.insertAction a :: ws) = applyAList (as ++ [a]) ws := by
            simp [applyAList, Write.applyA]
          rw [this, ih, List.map_append, insertsOfA_insertAction, List.map_cons]
          simp
      | updateActionById i f =>
          have : applyAList as (Write.updateActionById i f :: ws) =
              applyAList (as.map (fun r => if r.id == i then { f with id := r.id } else r)) ws := by
            simp [applyAList, Write.applyA]
          rw [this, ih, List.map_map, insertsOfA_updateActionById]
          have : as.map ((fun a : Action => a.id) ∘
              (fun r => if r.id == i then { f with id := r.id } else r)) =
              as.map (fun a => a.id) := by
            refine List.map_congr_left (fun r _ => ?_)
            by_cases hri : r.id = i
            · simp [Function.comp, hri]
            · simp [Function.comp, hri]
          rw [this]
      | disableActionById i =>
          have : applyAList as (Write.disableActionById i :: ws) =
              applyAList (as.map (fun r => if r.id == i then { r with enabled := false } else r)) ws := by
            simp [applyAList, Write.applyA]
          rw [this, ih, List.map_map, insertsOfA_disableActionById]
          have : as.map ((fun a : Action => a.id) ∘
              (fun r => if r.id == i then { r with enabled := false } else r)) =
              as.map (fun a => a.id) := by
            refine List.map_congr_left (fun r _ => ?_)
            by_cases hri : r.id = i
            · simp [Function.comp, hri]
            · simp [Function.comp, hri]
          rw [this]
      | insertPackage p =>
          have : applyAList as (Write.insertPackage p :: ws) = applyAList as ws := by
            simp [applyAList, Write.applyA]
          rw [this, ih, insertsOfA_insertPackage]
      | updatePackageById i f =>
          have : applyAList as (Write.updatePackageById i f :: ws) = applyAList as ws := by
            simp [applyAList, Write.applyA]
          rw [this, ih, insertsOfA_updatePackageById]

/-- With pairwise-distinct names, the dict lookup returns exactly the member
with the looked-up name. -/
theorem pyDictGetByName_unique {l : List Action} {b : Action}
    (hnd : (l.map (fun a => a.name)).Nodup) (hb : b ∈ l) :
    pyDictGetByName l b.name = Option.some b := by
  induction l with
  | nil => cases hb
  | cons x l ih =>
      rw [List.map_cons, List.nodup_cons] at hnd
      rcases List.mem_cons.mp hb with rfl | hmem
      · cases hl : pyDictGetByName l b.name with
        | none =>
            unfold pyDictGetByName at *
            rw [List.reverse_cons, List.find?_append, hl]
            simp
        | some c =>
            have hc := pyDictGetByName_mem hl
            exact absurd (hc.2 ▸ List.mem_map_of_mem _ hc.1) hnd.1
      · have hbn : b.name ∈ l.map (fun a => a.name) := List.mem_map_of_mem _ hmem
        have hxne : x.name ≠ b.name := fun he => hnd.1 (he ▸ hbn)
        unfold pyDictGetByName at *
        rw [List.reverse_cons, List.find?_append]
        rw [show List.find? (fun a => a.name == b.name) [x] = Option.none by
          simp [hxne]]
        rw [Option.or_none]
        exact ih hnd.2 hmem

theorem pyTupleLt_iff_lex (v w : List Int) :
    pyTupleLt v w = true ↔ List.Lex (fun a b : Int => a < b) v w := by
  induction v generalizing w with
  | nil =>
      cases w with
      | nil =>
          constructor
          · intro h; cases h
          · intro h; cases h
      | cons y ys =>
          constructor
          · intro _; exact List.Lex.nil
          · intro _; rfl
  | cons x xs ih =>
      cases w with
      | nil =>
          constructor
          · intro h; cases h
          · intro h; cases h
      | cons y ys =>
          rcases lt_trichotomy x y with h | h | h
          · constructor
            · intro _; exact List.Lex.rel h
            · intro _
              unfold pyTupleLt
              rw [if_pos h]
          · subst h
            unfold pyTupleLt
            rw [if_neg (lt_irrefl x), if_neg (lt_irrefl x)]
            rw [ih ys]
            exact (List.Lex.cons_iff).symm
          · constructor
            · intro hb
              unfold pyTupleLt at hb
              rw [if_neg (by omega), if_pos h] at hb
              cases hb
            · intro hlex
              cases hlex with
              | cons h2 => exact absurd h (lt_irrefl _)
              | rel h2 => exact absurd h2 (by omega)

/-! ## The claims -/

/-- C1: for every import call whose discovery stage succeeded, all catalog
writes of the reconciliation (package insert or update, action
inserts/updates, disabling of vanished actions) are issued inside one storage
transaction, so if any write fails partway the transaction rolls back and the
catalog is exactly its pre-import state. -/
theorem c1_reconciliation_atomic_rollback (db : Db) (action_package : ActionPackage)
    (actions : List Action) (disable_not_imported : Bool) (failAt : Option Nat)
    (h : (addActionsToDb db action_package actions disable_not_imported failAt).2 = false) :
    (addActionsToDb db action_package actions disable_not_imported failAt).1 = db := by
  cases hfind : db.action_packages.find? (fun p => p.name == action_package.name) with
  | none =>
      rw [addActionsToDb_insert_branch db action_package actions disable_not_imported failAt hfind] at h ⊢
      exact runTransaction_rollback _ _ _ h
  | some E =>
      rw [addActionsToDb_update_branch db action_package actions disable_not_imported failAt E hfind] at h ⊢
      exact runTransaction_rollback _ _ _ h

theorem c1_reconciliation_atomic_rollback_witness :
    (addActionsToDb ⟨[], []⟩ ⟨"p1", "pkg", "dir", "hash", "env"⟩ [] false (Option.some 0)).1 =
      (⟨[], []⟩ : Db) :=
  c1_reconciliation_atomic_rollback ⟨[], []⟩ ⟨"p1", "pkg", "dir", "hash", "env"⟩ [] false
    (Option.some 0) (by decide)

/-- C4: every discovery run exiting 1 whose stdout parses as a JSON object
containing a `lint_result` substructure fails with the lint-failure
validation error whose message is the human-readable rendering of the
violations, never with the generic runtime error. -/
theorem c4_lint_failure_validation_error (jsonLoads : String → Option PyObj)
    (python : String) (skip_lint : Bool) (import_path : String) (proc : CompletedProc)
    (loaded : List (String × PyObj)) (lint_result : List (String × PyObj))
    (hexit : proc.returncode = 1)
    (hjson : jsonLoads proc.stdout = Option.some (PyObj.dict loaded))
    (hlint : pyDictGet loaded "lint_result" = Option.some (PyObj.dict lint_result)) :
    (∃ msg, format_lint_results lint_result = Option.some msg ∧
      listActionsOutcome jsonLoads python skip_lint import_path proc =
        Except.error (ImportError.actionServerValidationError msg)) ∧
    ∀ m, listActionsOutcome jsonLoads python skip_lint import_path proc ≠
        Except.error (ImportError.runtimeError m) := by
  have houtcome : listActionsOutcome jsonLoads python skip_lint import_path proc =
      Except.error (ImportError.actionServerValidationError
        ("Lint issues found:\n" ++ pyRepr (PyObj.dict lint_result))) := by
    unfold listActionsOutcome
    rw [hexit]
    simp [hjson, hlint, format_lint_results]
  refine ⟨⟨_, rfl, houtcome⟩, ?_⟩
  intro m hcontra
  rw [houtcome] at hcontra
  cases hcontra

theorem c4_lint_failure_validation_error_witness :
    (∃ msg, format_lint_results [] = Option.some msg ∧
      listActionsOutcome (fun _ => Option.some (PyObj.dict [("lint_result", PyObj.dict [])]))
          "py" false "/pkg" ⟨1, "out", "err"⟩ =
        Except.error (ImportError.actionServerValidationError msg)) ∧
    ∀ m, listActionsOutcome (fun _ => Option.some (PyObj.dict [("lint_result", PyObj.dict [])]))
          "py" false "/pkg" ⟨1, "out", "err"⟩ ≠
        Except.error (ImportError.runtimeError m) :=
  c4_lint_failure_validation_error
    (fun _ => Option.some (PyObj.dict [("lint_result", PyObj.dict [])]))
    "py" false "/pkg" ⟨1, "out", "err"⟩ [("lint_result", PyObj.dict [])] []
    rfl rfl rfl

/-- C5: every discovery run exiting non-zero other than via a decodable lint
result (exit code neither 0 nor 1, or exit 1 whose stdout is not JSON or is
JSON without a `lint_result` substructure) fails with the generic runtime
error whose message includes the command line, the working directory and both
captured streams. -/
theorem c5_generic_discovery_hard_failure (jsonLoads : String → Option PyObj)
    (python : String) (skip_lint : Bool) (import_path : String) (proc : CompletedProc)
    (h : (proc.returncode ≠ 0 ∧ proc.returncode ≠ 1) ∨
      (proc.returncode = 1 ∧
        (jsonLoads proc.stdout = Option.none ∨
          ∀ loaded lint_result, ¬(jsonLoads proc.stdout = Option.some (PyObj.dict loaded) ∧
            pyDictGet loaded "lint_result" = Option.some (PyObj.dict lint_result))))) :
    listActionsOutcome jsonLoads python skip_lint import_path proc =
      Except.error (ImportError.runtimeError
        (genericListErrorMsg (list2cmdline (listCmdline python skip_lint)) import_path
          proc.stdout proc.stderr)) ∧
    (∃ s1 s2, genericListErrorMsg (list2cmdline (listCmdline python skip_lint)) import_path
        proc.stdout proc.stderr = s1 ++ list2cmdline (listCmdline python skip_lint) ++ s2) ∧
    (∃ s1 s2, genericListErrorMsg (list2cmdline (listCmdline python skip_lint)) import_path
        proc.stdout proc.stderr = s1 ++ import_path ++ s2) ∧
    (∃ s1 s2, genericListErrorMsg (list2cmdline (listCmdline python skip_lint)) import_path
        proc.stdout proc.stderr = s1 ++ proc.stdout ++ s2) ∧
    (∃ s1 s2, genericListErrorMsg (list2cmdline (listCmdline python skip_lint)) import_path
        proc.stdout proc.stderr = s1 ++ proc.stderr ++ s2) := by
  refine ⟨?_, ?_, ?_, ?_, ?_⟩
  · unfold listActionsOutcome
    rcases h with ⟨h0, h1⟩ | ⟨h1, hrest⟩
    · rw [if_pos (by simpa using h0), if_neg (by simpa using h1)]
      rfl
    · rw [h1]
      rw [if_pos (by decide), if_pos (by decide)]
      rcases hrest with hnone | hnolint
      · rw [hnone]
        rfl
      · cases hjson : jsonLoads proc.stdout with
        | none => rfl
        | some v =>
            cases v with
            | dict loaded =>
                cases hget : pyDictGet loaded "lint_result" with
                | none => simp [hget]
                | some lv =>
                    cases lv with
                    | dict lint_result => exact absurd ⟨hjson, hget⟩ (hnolint loaded lint_result)
                    | none => simp [hget]
                    | bool b => simp [hget]
                    | int n => simp [hget]
                    | str s => simp [hget]
                    | list xs => simp [hget]
            | none => rfl
            | bool b => rfl
            | int n => rfl
            | str s => rfl
            | list xs => rfl
  · exact ⟨"It was not possible to list the actions.\ncmdline: ",
      "\ncwd: " ++ (import_path ++ ("\nstdout:" ++ (proc.stdout ++ ("\nstderr:" ++
        proc.stderr)))), by
      unfold genericListErrorMsg
      simp [String.append_assoc]⟩
  · exact ⟨"It was not possible to list the actions.\ncmdline: " ++
      list2cmdline (listCmdline python skip_lint) ++ "\ncwd: ",
      "\nstdout:" ++ (proc.stdout ++ ("\nstderr:" ++ proc.stderr)), by
      unfold genericListErrorMsg
      simp [String.append_assoc]⟩
  · exact ⟨"It was not possible to list the actions.\ncmdline: " ++
      list2cmdline (listCmdline python skip_lint) ++ "\ncwd: " ++ import_path ++
      "\nstdout:", "\nstderr:" ++ proc.stderr, by
      unfold genericListErrorMsg
      simp [String.append_assoc]⟩
  · exact ⟨"It was not possible to list the actions.\ncmdline: " ++
      list2cmdline (listCmdline python skip_lint) ++ "\ncwd: " ++ import_path ++
      "\nstdout:" ++ proc.stdout ++ "\nstderr:", "", by
      unfold genericListErrorMsg
      simp [String.append_assoc]⟩

theorem c5_generic_discovery_hard_failure_witness :
    listActionsOutcome (fun _ => Option.none) "py" false "/pkg" ⟨2, "out", "err"⟩ =
      Except.error (ImportError.runtimeError
        (genericListErrorMsg (list2cmdline (listCmdline "py" false)) "/pkg" "out" "err")) ∧
    (∃ s1 s2, genericListErrorMsg (list2cmdline (listCmdline "py" false)) "/pkg" "out" "err" =
      s1 ++ list2cmdline (listCmdline "py" false) ++ s2) ∧
    (∃ s1 s2, genericListErrorMsg (list2cmdline (listCmdline "py" false)) "/pkg" "out" "err" =
      s1 ++ "/pkg" ++ s2) ∧
    (∃ s1 s2, genericListErrorMsg (list2cmdline (listCmdline "py" false)) "/pkg" "out" "err" =
      s1 ++ "out" ++ s2) ∧
    (∃ s1 s2, genericListErrorMsg (list2cmdline (listCmdline "py" false)) "/pkg" "out" "err" =
      s1 ++ "err" ++ s2) :=
  c5_generic_discovery_hard_failure (fun _ => Option.none) "py" false "/pkg" ⟨2, "out", "err"⟩
    (Or.inl (by constructor <;> decide))

/-- C6: the version gate parses the probe output as a dot-separated integer
tuple and compares it with the fixed minimum (0, 0, 7) by Python tuple
lexicographic comparison (no padding): 0.0.6 fails with a version-gate
validation error whose message depends on manifest presence, while 0.0.7 and
0.1.0 proceed. -/
theorem c6_version_gate :
    parseVersionOutput "0.0.6" = Option.some [0, 0, 6] ∧
    parseVersionOutput "0.0.7" = Option.some [0, 0, 7] ∧
    parseVersionOutput "0.1.0" = Option.some [0, 1, 0] ∧
    (∀ yaml_path sys_exe, versionGateStage [0, 0, 6] true yaml_path sys_exe =
      Except.error (ImportError.actionServerValidationError
        (versionTooOldYamlMsg [0, 0, 6] yaml_path))) ∧
    (∀ yaml_path sys_exe, versionGateStage [0, 0, 6] false yaml_path sys_exe =
      Except.error (ImportError.actionServerValidationError
        (versionTooOldAmbientMsg [0, 0, 6] sys_exe))) ∧
    versionTooOldYamlMsg [0, 0, 6] "p" ≠ versionTooOldAmbientMsg [0, 0, 6] "p" ∧
    (∀ ex yaml_path sys_exe, versionGateStage [0, 0, 7] ex yaml_path sys_exe = Except.ok ()) ∧
    (∀ ex yaml_path sys_exe, versionGateStage [0, 1, 0] ex yaml_path sys_exe = Except.ok ()) ∧
    (∀ v w, pyTupleLt v w = true ↔ List.Lex (fun a b : Int => a < b) v w) := by
  refine ⟨by decide, by decide, by decide, fun yp se => rfl, fun yp se => rfl, by decide,
    fun ex yp se => rfl, fun ex yp se => rfl, pyTupleLt_iff_lex⟩

/-- C7: the dependency-content hash is computed from the parsed manifest
structure's string representation, so any two manifest texts with equal
parsed structures produce the same hash (and the same whole stage outcome). -/
theorem c7_hash_of_parsed_structure (safeLoad : String → Option PyObj) (raw1 raw2 : String)
    (import_path : String) (primaryExists legacyExists frozen : Bool)
    (rcc : String → RccEnvInfo)
    (h : safeLoad raw1 = safeLoad raw2) :
    readManifestStage import_path primaryExists legacyExists frozen (safeLoad raw1) rcc =
      readManifestStage import_path primaryExists legacyExists frozen (safeLoad raw2) rcc ∧
    ∀ kvs hash env, safeLoad raw1 = Option.some (PyObj.dict kvs) →
      readManifestStage import_path primaryExists legacyExists frozen (safeLoad raw1) rcc =
        Except.ok (hash, env) →
      (primaryExists || legacyExists) = true →
      hash = create_hash (pyRepr (PyObj.dict kvs)) := by
  constructor
  · rw [h]
  · intro kvs hash env hkvs hok hex
    rw [hkvs] at hok
    unfold readManifestStage at hok
    rw [hex] at hok
    rw [if_neg (by decide)] at hok
    have hok2 :
        (if (!pyTruthy ((pyDictGet kvs "dependencies").getD PyObj.none)) = true then
          Except.error (ImportError.actionPackageError (noDependenciesMsg
            (if primaryExists then import_path ++ "/action-server.yaml"
             else import_path ++ "/conda.yaml")))
        else
          if (!(rcc (create_hash (pyRepr (PyObj.dict kvs)))).success) = true then
            Except.error (ImportError.actionPackageError
              (rccBootstrapFailedMsg (rcc (create_hash (pyRepr (PyObj.dict kvs)))).message))
          else
            match (rcc (create_hash (pyRepr (PyObj.dict kvs)))).result with
            | Option.none => Except.error (ImportError.actionPackageError rccNoResultMsg)
            | Option.some r => Except.ok (create_hash (pyRepr (PyObj.dict kvs)), r.env)) =
          Except.ok (hash, env) := hok
    by_cases hdeps : pyTruthy ((pyDictGet kvs "dependencies").getD PyObj.none)
    · rw [if_neg (by simpa using hdeps)] at hok2
      by_cases hsucc : (rcc (create_hash (pyRepr (PyObj.dict kvs)))).success
      · rw [if_neg (by simpa using hsucc)] at hok2
        cases hres : (rcc (create_hash (pyRepr (PyObj.dict kvs)))).result with
        | none => rw [hres] at hok2; cases hok2
        | some r =>
            rw [hres] at hok2
            cases hok2
            rfl
      · rw [if_pos (by simpa using hsucc)] at hok2
        cases hok2
    · rw [if_pos (by simpa using hdeps)] at hok2
      cases hok2

theorem c7_hash_of_parsed_structure_witness :
    (readManifestStage "/pkg" true false false
        ((fun t => if t == "dependencies: [1]" || t == "dependencies: [1] # c" then
          Option.some (PyObj.dict [("dependencies", PyObj.list [PyObj.int 1])])
          else Option.none) "dependencies: [1]")
        (fun _ => ⟨true, "", Option.some ⟨[]⟩⟩) =
      readManifestStage "/pkg" true false false
        ((fun t => if t == "dependencies: [1]" || t == "dependencies: [1] # c" then
          Option.some (PyObj.dict [("dependencies", PyObj.list [PyObj.int 1])])
          else Option.none) "dependencies: [1] # c")
        (fun _ => ⟨true, "", Option.some ⟨[]⟩⟩)) ∧
    ∀ kvs hash env,
      (fun t => if t == "dependencies: [1]" || t == "dependencies: [1] # c" then
          Option.some (PyObj.dict [("dependencies", PyObj.list [PyObj.int 1])])
          else Option.none) "dependencies: [1]" = Option.some (PyObj.dict kvs) →
      readManifestStage "/pkg" true false false
        ((fun t => if t == "dependencies: [1]" || t == "dependencies: [1] # c" then
          Option.some (PyObj.dict [("dependencies", PyObj.list [PyObj.int 1])])
          else Option.none) "dependencies: [1]")
        (fun _ => ⟨true, "", Option.some ⟨[]⟩⟩) = Except.ok (hash, env) →
      (true || false) = true →
      hash = create_hash (pyRepr (PyObj.dict kvs)) :=
  c7_hash_of_parsed_structure
    (fun t => if t == "dependencies: [1]" || t == "dependencies: [1] # c" then
      Option.some (PyObj.dict [("dependencies", PyObj.list [PyObj.int 1])])
      else Option.none)
    "dependencies: [1]" "dependencies: [1] # c" "/pkg" true false false
    (fun _ => ⟨true, "", Option.some ⟨[]⟩⟩) rfl

/-- C8: a package directory with neither manifest file imports with the fixed
unmanaged sentinel hash and an empty environment mapping in non-frozen mode,
and fails with a validation error in frozen mode. -/
theorem c8_no_manifest_modes (import_path : String) (safeLoadResult : Option PyObj)
    (rcc : String → RccEnvInfo) :
    readManifestStage import_path false false false safeLoadResult rcc =
      Except.ok (unmanagedSentinel, []) ∧
    readManifestStage import_path false false true safeLoadResult rcc =
      Except.error (ImportError.actionServerValidationError
        (frozenNoManifestMsg (import_path ++ "/action-server.yaml"))) :=
  ⟨rfl, rfl⟩

/-! ## Machinery: the committed state of the update branch -/

/-- `existing_actions`: the package's rows as selected before the transaction. -/
def nmOf (db : Db) (E : ActionPackage) : List Action :=
  db.actions.filter (fun a => a.action_package_id == E.id)

/-- `seen_action_ids` in loop order. -/
def seenOf (db : Db) (E : ActionPackage) (actions : List Action) : List String :=
  actions.map (seenIdOf (nmOf db E))

/-- The update branch's action-table writes: the per-discovered-action
updates/inserts followed by the disable pass. -/
def actionWritesOf (db : Db) (E : ActionPackage) (actions : List Action) (dis : Bool) :
    List Write :=
  actions.map (settledWrite E.id (nmOf db E)) ++
    (if dis then
      (db.actions.filter (fun a => !((seenOf db E actions).contains a.id))).map
        (fun a => Write.disableActionById a.id)
    else [])

theorem updateBranchWrites_eq (db : Db) (pkg : ActionPackage) (actions : List Action)
    (dis : Bool) (E : ActionPackage) :
    updateBranchWrites db pkg actions dis E =
      Write.updatePackageById E.id pkg :: actionWritesOf db E actions dis := rfl

theorem updTargets_actionWritesOf_sub (db : Db) (E : ActionPackage) (actions : List Action)
    (dis : Bool) :
    ∀ t ∈ updTargetsA (actionWritesOf db E actions dis), t ∈ db.actions.map (fun x => x.id) := by
  intro t ht
  unfold actionWritesOf at ht
  rw [updTargetsA_append] at ht
  rcases List.mem_append.mp ht with h1 | h2
  · rw [updTargetsA_settled] at h1
    obtain ⟨a, ha, heq⟩ := List.mem_filterMap.mp h1
    cases hl : pyDictGetByName (nmOf db E) a.name with
    | none => rw [hl] at heq; cases heq
    | some ex =>
        rw [hl] at heq
        have hex : ex ∈ db.actions := List.mem_of_mem_filter (pyDictGetByName_mem hl).1
        have : ex.id = t := by simpa using heq
        rw [← this]
        exact List.mem_map_of_mem _ hex
  · cases dis with
    | false => rw [if_neg (by decide)] at h2; cases h2
    | true =>
        rw [if_pos rfl, updTargetsA_disables] at h2
        obtain ⟨a, ha, heq⟩ := List.mem_map.mp h2
        rw [← heq]
        exact List.mem_map_of_mem _ (List.mem_of_mem_filter ha)

theorem inserts_actionWritesOf (db : Db) (E : ActionPackage) (actions : List Action)
    (dis : Bool) :
    insertsOfA (actionWritesOf db E actions dis) =
      (actions.filter (fun a => (pyDictGetByName (nmOf db E) a.name).isNone)).map
        (fun a => { a with action_package_id := E.id }) := by
  unfold actionWritesOf
  rw [insertsOfA_append, insertsOfA_settled]
  cases dis with
  | false => rw [if_neg (by decide), insertsOfA_nil, List.append_nil]
  | true => rw [if_pos rfl, insertsOfA_disables, List.append_nil]

theorem noPkgEffect_actionWritesOf (db : Db) (E : ActionPackage) (actions : List Action)
    (dis : Bool) : ∀ w ∈ actionWritesOf db E actions dis, w.noPkgEffect := by
  intro w hw
  unfold actionWritesOf at hw
  rcases List.mem_append.mp hw with h1 | h2
  · exact noPkgEffect_settled _ _ _ w h1
  · cases dis with
    | false => rw [if_neg (by decide)] at h2; cases h2
    | true => exact noPkgEffect_disables _ w (by rwa [if_pos rfl] at h2)

/-- The committed catalog of one update-branch transaction: the package table
with the found row overwritten in place, and the action table with every
pre-existing row passed through the update/disable chain followed by the
newly inserted rows. -/
theorem applyWrites_update_branch (db : Db) (pkg : ActionPackage) (actions : List Action)
    (dis : Bool) (E : ActionPackage)
    (hfresh : ∀ a ∈ actions, a.id ∉ db.actions.map (fun x => x.id)) :
    applyWrites db (updateBranchWrites db pkg actions dis E) =
      ⟨db.action_packages.map (fun r => if r.id == E.id then { pkg with id := r.id } else r),
       db.actions.map (updChainA (actionWritesOf db E actions dis)) ++
         (actions.filter (fun a => (pyDictGetByName (nmOf db E) a.name).isNone)).map
           (fun a => { a with action_package_id := E.id })⟩ := by
  rw [applyWrites_components, updateBranchWrites_eq]
  have hP : applyPList db.action_packages
      (Write.updatePackageById E.id pkg :: actionWritesOf db E actions dis) =
      db.action_packages.map (fun r => if r.id == E.id then { pkg with id := r.id } else r) := by
    have hstep : applyPList db.action_packages
        (Write.updatePackageById E.id pkg :: actionWritesOf db E actions dis) =
        applyPList
          (db.action_packages.map (fun r => if r.id == E.id then { pkg with id := r.id } else r))
          (actionWritesOf db E actions dis) := by
      simp [applyPList, Write.applyP]
    rw [hstep]
    exact applyPList_of_noPkgEffect _ _ (noPkgEffect_actionWritesOf db E actions dis)
  have hA : applyAList db.actions
      (Write.updatePackageById E.id pkg :: actionWritesOf db E actions dis) =
      db.actions.map (updChainA (actionWritesOf db E actions dis)) ++
        (actions.filter (fun a => (pyDictGetByName (nmOf db E) a.name).isNone)).map
          (fun a => { a with action_package_id := E.id }) := by
    have hstep : applyAList db.actions
        (Write.updatePackageById E.id pkg :: actionWritesOf db E actions dis) =
        applyAList db.actions (actionWritesOf db E actions dis) := by
      simp [applyAList, Write.applyA]
    rw [hstep]
    rw [applyAList_char _ _ ?hins, inserts_actionWritesOf]
    case hins =>
      intro b hb
      rw [inserts_actionWritesOf] at hb
      obtain ⟨a, ha, rfl⟩ := List.mem_map.mp hb
      intro hmem
      have := updTargets_actionWritesOf_sub db E actions dis _ hmem
      exact hfresh a (List.mem_of_mem_filter ha) this
  rw [hP, hA]

theorem contains_iff_mem {l : List String} {x : String} :
    l.contains x = true ↔ x ∈ l := by
  show List.elem x l = true ↔ x ∈ l
  exact List.elem_iff

theorem disables_as_ids (l : List Action) :
    l.map (fun a => Write.disableActionById a.id) =
      (l.map (fun a => a.id)).map Write.disableActionById := by
  rw [List.map_map]
  rfl

theorem mem_nmOf_pkgid {db : Db} {E : ActionPackage} {ex : Action} (h : ex ∈ nmOf db E) :
    ex.action_package_id = E.id := by
  unfold nmOf at h
  have := (List.mem_filter.mp h).2
  simpa using this

/-- Member-wise: the update/disable chain never changes a pre-existing
row's name. -/
theorem chain_preserves_name (db : Db) (E : ActionPackage) (actions : List Action) (dis : Bool)
    (hWFa : (db.actions.map (fun a => a.id)).Nodup) (r : Action) (hr : r ∈ db.actions) :
    (updChainA (actionWritesOf db E actions dis) r).name = r.name := by
  unfold actionWritesOf
  rw [updChainA_append]
  have hs : (updChainA (actions.map (settledWrite E.id (nmOf db E))) r).name = r.name := by
    refine updChainA_settled_name E.id (nmOf db E) actions r.id r.name ?_ r rfl rfl
    intro a _ ex hl hexid
    have hex : ex ∈ db.actions := List.mem_of_mem_filter (pyDictGetByName_mem hl).1
    rw [eq_of_mem_of_id_eq hex hr hWFa hexid]
  have hid : (updChainA (actions.map (settledWrite E.id (nmOf db E))) r).id = r.id :=
    updChainA_id_preserved _ _
  set r2 := updChainA (actions.map (settledWrite E.id (nmOf db E))) r with hr2
  cases dis with
  | false => rw [if_neg (by decide)]; exact hs
  | true =>
      rw [if_pos rfl, disables_as_ids, updChainA_all_disables]
      split
      · exact hs
      · exact hs

/-- Member-wise: the update/disable chain never changes a pre-existing
row's owning package. -/
theorem chain_preserves_pkgid (db : Db) (E : ActionPackage) (actions : List Action) (dis : Bool)
    (hWFa : (db.actions.map (fun a => a.id)).Nodup) (r : Action) (hr : r ∈ db.actions) :
    (updChainA (actionWritesOf db E actions dis) r).action_package_id =
      r.action_package_id := by
  unfold actionWritesOf
  rw [updChainA_append]
  have hs : (updChainA (actions.map (settledWrite E.id (nmOf db E))) r).action_package_id =
      r.action_package_id := by
    refine updChainA_settled_pkgid E.id (nmOf db E) actions r.id r.action_package_id ?_ r rfl rfl
    intro a _ ex hl hexid
    have hexnm := (pyDictGetByName_mem hl).1
    have hex : ex ∈ db.actions := List.mem_of_mem_filter hexnm
    have : ex = r := eq_of_mem_of_id_eq hex hr hWFa hexid
    rw [← mem_nmOf_pkgid hexnm, this]
  set r2 := updChainA (actions.map (settledWrite E.id (nmOf db E))) r with hr2
  cases dis with
  | false => rw [if_neg (by decide)]; exact hs
  | true =>
      rw [if_pos rfl, disables_as_ids, updChainA_all_disables]
      split
      · exact hs
      · exact hs

/-- Member-wise: a pre-existing row whose id was not marked seen is left
untouched by the updates, and the disable pass (when requested) sets exactly
its enabled flag to false. -/
theorem chain_on_unseen (db : Db) (E : ActionPackage) (actions : List Action) (dis : Bool)
    (r : Action) (hr : r ∈ db.actions) (hunseen : r.id ∉ seenOf db E actions) :
    updChainA (actionWritesOf db E actions dis) r =
      if dis then { r with enabled := false } else r := by
  unfold actionWritesOf
  rw [updChainA_append]
  have hnotarget : r.id ∉ updTargetsA (actions.map (settledWrite E.id (nmOf db E))) := by
    rw [updTargetsA_settled]
    intro hmem
    obtain ⟨a, ha, heq⟩ := List.mem_filterMap.mp hmem
    cases hl : pyDictGetByName (nmOf db E) a.name with
    | none => rw [hl] at heq; cases heq
    | some ex =>
        rw [hl] at heq
        have : ex.id = r.id := by simpa using heq
        refine hunseen ?_
        unfold seenOf
        rw [← this, ← seenIdOf_of_some hl]
        exact List.mem_map_of_mem _ ha
  rw [updChainA_not_targeted _ _ hnotarget]
  cases dis with
  | false => rw [if_neg (by decide)]; rfl
  | true =>
      rw [if_pos rfl, disables_as_ids, updChainA_all_disables, if_pos rfl]
      have hrow : r ∈ db.actions.filter (fun a => !((seenOf db E actions).contains a.id)) := by
        refine List.mem_filter.mpr ⟨hr, ?_⟩
        have : (seenOf db E actions).contains r.id = false := by
          rcases hcontains : (seenOf db E actions).contains r.id with _ | _
          · rfl
          · exact absurd (contains_iff_mem.mp hcontains) hunseen
        simpa using this
      rw [if_pos (List.mem_map_of_mem _ hrow)]

theorem seenOf_eq_importSeenIds (db : Db) (pkg : ActionPackage) (actions : List Action)
    (E : ActionPackage)
    (hfind : db.action_packages.find? (fun p => p.name == pkg.name) = Option.some E) :
    importSeenIds db pkg actions = seenOf db E actions := by
  rw [importSeenIds_update_branch db pkg actions E hfind]
  rfl

theorem addActionsToDb_commit (db : Db) (pkg : ActionPackage) (actions : List Action)
    (dis : Bool) (E : ActionPackage)
    (hfind : db.action_packages.find? (fun p => p.name == pkg.name) = Option.some E) :
    addActionsToDb db pkg actions dis Option.none =
      (applyWrites db (updateBranchWrites db pkg actions dis E), true) := by
  rw [addActionsToDb_update_branch db pkg actions dis Option.none E hfind,
    runTransaction_commit]

/-- C3: on an import of an existing package, every action in the pre-mutation
snapshot whose id was not marked seen is, with disabling requested, set to
`enabled=false` with its id preserved and no other field modified; without
disabling its row is left completely untouched. -/
theorem c3_disable_pass_on_unseen (db : Db) (pkg : ActionPackage) (actions : List Action)
    (E : ActionPackage)
    (hfind : db.action_packages.find? (fun p => p.name == pkg.name) = Option.some E)
    (hWFa : (db.actions.map (fun a => a.id)).Nodup)
    (hfresh : ∀ b ∈ actions, b.id ∉ db.actions.map (fun x => x.id))
    (a : Action) (ha : a ∈ db.actions)
    (hunseen : a.id ∉ importSeenIds db pkg actions) :
    findById (addActionsToDb db pkg actions true Option.none).1.actions a.id =
      Option.some { a with enabled := false } ∧
    findById (addActionsToDb db pkg actions false Option.none).1.actions a.id =
      Option.some a := by
  rw [seenOf_eq_importSeenIds db pkg actions E hfind] at hunseen
  have main : ∀ dis : Bool,
      findById (addActionsToDb db pkg actions dis Option.none).1.actions a.id =
        Option.some (if dis then { a with enabled := false } else a) := by
    intro dis
    rw [addActionsToDb_commit db pkg actions dis E hfind]
    show findById (applyWrites db (updateBranchWrites db pkg actions dis E)).actions a.id = _
    rw [applyWrites_update_branch db pkg actions dis E hfresh]
    show findById (db.actions.map (updChainA (actionWritesOf db E actions dis)) ++
      (actions.filter (fun b => (pyDictGetByName (nmOf db E) b.name).isNone)).map
        (fun b => { b with action_package_id := E.id })) a.id = _
    rw [findById_append]
    rw [findById_map _ _ _ (fun r => updChainA_id_preserved _ r),
      findById_self a db.actions ha hWFa]
    show Option.some (updChainA (actionWritesOf db E actions dis) a) = _
    rw [chain_on_unseen db E actions dis a ha hunseen]
  exact ⟨main true, main false⟩

theorem c3_disable_pass_on_unseen_witness :
    findById (addActionsToDb
        ⟨[⟨"p1", "pkg", "d", "h", "e"⟩],
         [⟨"a1", "p1", "old", "", "f", 1, "i", "o", true, Option.none⟩]⟩
        ⟨"p2", "pkg", "d", "h", "e"⟩ [] true Option.none).1.actions "a1" =
      Option.some ⟨"a1", "p1", "old", "", "f", 1, "i", "o", false, Option.none⟩ ∧
    findById (addActionsToDb
        ⟨[⟨"p1", "pkg", "d", "h", "e"⟩],
         [⟨"a1", "p1", "old", "", "f", 1, "i", "o", true, Option.none⟩]⟩
        ⟨"p2", "pkg", "d", "h", "e"⟩ [] false Option.none).1.actions "a1" =
      Option.some ⟨"a1", "p1", "old", "", "f", 1, "i", "o", true, Option.none⟩ :=
  c3_disable_pass_on_unseen
    ⟨[⟨"p1", "pkg", "d", "h", "e"⟩],
     [⟨"a1", "p1", "old", "", "f", 1, "i", "o", true, Option.none⟩]⟩
    ⟨"p2", "pkg", "d", "h", "e"⟩ [] ⟨"p1", "pkg", "d", "h", "e"⟩
    (by decide) (by decide) (by decide)
    ⟨"a1", "p1", "old", "", "f", 1, "i", "o", true, Option.none⟩
    (by decide) (by decide)

/-- C10: every discovered action is written with `enabled=true`: the built
row carries `enabled=True`, and the update of a rediscovered existing action
overwrites its fields so that the row at the existing id ends up enabled,
whatever its previous enabled flag was. -/
theorem c10_rediscovery_enables (db : Db) (pkg : ActionPackage) (actions : List Action)
    (dis : Bool) (E : ActionPackage) (a r : Action)
    (hfind : db.action_packages.find? (fun p => p.name == pkg.name) = Option.some E)
    (hWFa : (db.actions.map (fun x => x.id)).Nodup)
    (hfresh : ∀ b ∈ actions, b.id ∉ db.actions.map (fun x => x.id))
    (hen : ∀ b ∈ actions, b.enabled = true)
    (ha : a ∈ actions)
    (hlook : pyDictGetByName (nmOf db E) a.name = Option.some r) :
    (∀ gen_id action_package_id filepath action_fields,
      (buildAction gen_id action_package_id filepath action_fields).enabled = true) ∧
    ∃ row, findById (addActionsToDb db pkg actions dis Option.none).1.actions r.id =
      Option.some row ∧ row.enabled = true := by
  refine ⟨fun _ _ _ _ => rfl, ?_⟩
  have hrdb : r ∈ db.actions := List.mem_of_mem_filter (pyDictGetByName_mem hlook).1
  have hseen : r.id ∈ seenOf db E actions := by
    unfold seenOf
    rw [← seenIdOf_of_some hlook]
    exact List.mem_map_of_mem _ ha
  rw [addActionsToDb_commit db pkg actions dis E hfind]
  show ∃ row, findById (applyWrites db (updateBranchWrites db pkg actions dis E)).actions r.id =
    Option.some row ∧ row.enabled = true
  rw [applyWrites_update_branch db pkg actions dis E hfresh]
  show ∃ row, findById (db.actions.map (updChainA (actionWritesOf db E actions dis)) ++
    (actions.filter (fun b => (pyDictGetByName (nmOf db E) b.name).isNone)).map
      (fun b => { b with action_package_id := E.id })) r.id = Option.some row ∧
    row.enabled = true
  rw [findById_append,
    findById_map _ _ _ (fun x => updChainA_id_preserved _ x),
    findById_self r db.actions hrdb hWFa]
  refine ⟨updChainA (actionWritesOf db E actions dis) r, rfl, ?_⟩
  unfold actionWritesOf
  rw [updChainA_append]
  have hsettled : (updChainA (actions.map (settledWrite E.id (nmOf db E))) r).enabled = true := by
    refine updChainA_settled_enabled_of_targeted E.id (nmOf db E) actions hen r ?_
    rw [updTargetsA_settled]
    refine List.mem_filterMap.mpr ⟨a, ha, ?_⟩
    rw [hlook]
    rfl
  have hid2 : (updChainA (actions.map (settledWrite E.id (nmOf db E))) r).id = r.id :=
    updChainA_id_preserved _ _
  cases dis with
  | false => rw [if_neg (by decide)]; exact hsettled
  | true =>
      rw [if_pos rfl, disables_as_ids, updChainA_all_disables]
      rw [if_neg ?hnot]
      · exact hsettled
      case hnot =>
        rw [hid2]
        intro hmem
        obtain ⟨x, hx, hxid⟩ := List.mem_map.mp hmem
        have hxf := List.mem_filter.mp hx
        have : (seenOf db E actions).contains x.id = true := by
          rw [hxid]
          exact contains_iff_mem.mpr hseen
        rw [this] at hxf
        simp at hxf

theorem c10_rediscovery_enables_witness :
    (∀ gen_id action_package_id filepath action_fields,
      (buildAction gen_id action_package_id filepath action_fields).enabled = true) ∧
    ∃ row, findById (addActionsToDb
        ⟨[⟨"p1", "pkg", "d", "h", "e"⟩],
         [⟨"a1", "p1", "x", "", "f", 1, "i", "o", false, Option.none⟩]⟩
        ⟨"p2", "pkg", "d", "h", "e"⟩
        [⟨"a2", "p2", "x", "", "f", 1, "i", "o", true, Option.none⟩] false Option.none).1.actions
        "a1" = Option.some row ∧ row.enabled = true :=
  c10_rediscovery_enables
    ⟨[⟨"p1", "pkg", "d", "h", "e"⟩],
     [⟨"a1", "p1", "x", "", "f", 1, "i", "o", false, Option.none⟩]⟩
    ⟨"p2", "pkg", "d", "h", "e"⟩
    [⟨"a2", "p2", "x", "", "f", 1, "i", "o", true, Option.none⟩] false
    ⟨"p1", "pkg", "d", "h", "e"⟩
    ⟨"a2", "p2", "x", "", "f", 1, "i", "o", true, Option.none⟩
    ⟨"a1", "p1", "x", "", "f", 1, "i", "o", false, Option.none⟩
    (by decide) (by decide) (by decide) (by decide) (by decide) (by decide)

/-! ## Machinery: reconciled states and stability -/

/-- Two package rows computed from the same import inputs: equal in every
field except the generated id. -/
def SamePkgFields (p q : ActionPackage) : Prop :=
  p.name = q.name ∧ p.directory = q.directory ∧ p.conda_hash = q.conda_hash ∧
    p.env_json = q.env_json

/-- Two discovered-action rows built from the same discovery record: equal in
every field except the generated id and the owning package id. -/
def SameDiscovery (a b : Action) : Prop :=
  a.name = b.name ∧ a.docs = b.docs ∧ a.file = b.file ∧ a.lineno = b.lineno ∧
  a.input_schema = b.input_schema ∧ a.output_schema = b.output_schema ∧
  a.enabled = b.enabled ∧ a.is_consequential = b.is_consequential

/-- The catalog already reflects this import's inputs: the package row is
found by name and carries the computed fields, and every discovered action's
dict lookup lands on a row already carrying its fields. -/
def Reconciled (db : Db) (pkg : ActionPackage) (actions : List Action) : Prop :=
  ∃ E, db.action_packages.find? (fun p => p.name == pkg.name) = Option.some E ∧
    E = { pkg with id := E.id } ∧
    ∀ a ∈ actions, ∃ r, pyDictGetByName (nmOf db E) a.name = Option.some r ∧
      r = { a with id := r.id, action_package_id := E.id }

/-- Every action the import would not mark seen is already disabled. -/
def StaleDisabled (db : Db) (pkg : ActionPackage) (actions : List Action) : Prop :=
  ∀ r ∈ db.actions, r.id ∉ importSeenIds db pkg actions → r.enabled = false

/-- Stability: on a reconciled catalog (with stale actions already disabled
when disabling is requested), the update branch commits without changing the
catalog at all. -/
theorem addActionsToDb_stable (db : Db) (pkg : ActionPackage) (actions : List Action)
    (dis : Bool)
    (hWFp : (db.action_packages.map (fun p => p.id)).Nodup)
    (hWFa : (db.actions.map (fun a => a.id)).Nodup)
    (hrec : Reconciled db pkg actions)
    (hdis : dis = true → StaleDisabled db pkg actions) :
    addActionsToDb db pkg actions dis Option.none = (db, true) := by
  obtain ⟨E, hfind, hpkgf, hact⟩ := hrec
  rw [addActionsToDb_commit db pkg actions dis E hfind]
  suffices h : applyWrites db (updateBranchWrites db pkg actions dis E) = db by rw [h]
  rw [updateBranchWrites_eq]
  refine applyWrites_id db _ ?_
  intro w hw
  rcases List.mem_cons.mp hw with rfl | hw2
  · refine applyWrite_updatePackage_id db E.id pkg ?_
    intro p hp hpid
    have hE : E ∈ db.action_packages := List.mem_of_find?_eq_some hfind
    have hpE : p = E := List.inj_on_of_nodup_map hWFp hp hE hpid
    rw [hpE, hpkgf]
  · rcases List.mem_append.mp hw2 with hws | hwd
    · obtain ⟨a, ha, rfl⟩ := List.mem_map.mp hws
      obtain ⟨r, hlook, hreq⟩ := hact a ha
      rw [settledWrite_of_some hlook]
      refine applyWrite_updateAction_id db r.id _ ?_
      intro x hx hxid
      have hrdb : r ∈ db.actions := List.mem_of_mem_filter (pyDictGetByName_mem hlook).1
      have hxr : x = r := eq_of_mem_of_id_eq hx hrdb hWFa hxid
      rw [hxr]
      have hcomm : ({ a with id := r.id, action_package_id := E.id } : Action) =
          { { a with action_package_id := E.id } with id := r.id } := rfl
      exact (hreq.trans hcomm).symm
    · cases dis with
      | false => rw [if_neg (by decide)] at hwd; cases hwd
      | true =>
          rw [if_pos rfl] at hwd
          obtain ⟨x, hx, rfl⟩ := List.mem_map.mp hwd
          refine applyWrite_disable_id db x.id ?_
          intro y hy hyid
          have hxf := List.mem_filter.mp hx
          have hxunseen : x.id ∉ seenOf db E actions := by
            intro hmem
            have := contains_iff_mem.mpr hmem
            rw [this] at hxf
            simp at hxf
          refine (hdis rfl) y hy ?_
          rw [seenOf_eq_importSeenIds db pkg actions E hfind, hyid]
          exact hxunseen

theorem insertsOfP_of_noPkgEffect (ws : List Write) (h : ∀ w ∈ ws, w.noPkgEffect) :
    insertsOfP ws = [] := by
  induction ws with
  | nil => rfl
  | cons w ws ih =>
      have hw := h w (List.mem_cons_self _ _)
      have hrest := ih (fun w hm => h w (List.mem_cons_of_mem _ hm))
      cases w with
      | insertPackage p => exact absurd hw (by simp [Write.noPkgEffect])
      | updatePackageById i f => exact absurd hw (by simp [Write.noPkgEffect])
      | insertAction a => simpa [insertsOfP, List.filterMap_cons] using hrest
      | updateActionById i f => simpa [insertsOfP, List.filterMap_cons] using hrest
      | disableActionById i => simpa [insertsOfP, List.filterMap_cons] using hrest

theorem insertsOfP_updateBranch (db : Db) (pkg : ActionPackage) (actions : List Action)
    (dis : Bool) (E : ActionPackage) :
    insertsOfP (updateBranchWrites db pkg actions dis E) = [] := by
  rw [updateBranchWrites_eq]
  show insertsOfP (actionWritesOf db E actions dis) = []
  exact insertsOfP_of_noPkgEffect _ (noPkgEffect_actionWritesOf db E actions dis)

theorem insertsOfA_updateBranch (db : Db) (pkg : ActionPackage) (actions : List Action)
    (dis : Bool) (E : ActionPackage) :
    insertsOfA (updateBranchWrites db pkg actions dis E) =
      (actions.filter (fun a => (pyDictGetByName (nmOf db E) a.name).isNone)).map
        (fun a => { a with action_package_id := E.id }) := by
  rw [updateBranchWrites_eq]
  show insertsOfA (actionWritesOf db E actions dis) = _
  exact inserts_actionWritesOf db E actions dis

theorem nodup_ids_filter (l : List Action) (p : Action → Bool)
    (h : (l.map (fun a => a.id)).Nodup) : ((l.filter p).map (fun a => a.id)).Nodup :=
  h.sublist ((l.filter_sublist).map _)

/-- The ids a committed import leaves in the catalog: on a reconciled state
no insert happens, so both tables keep exactly their id lists. -/
theorem addActionsToDb_ids_of_reconciled (db : Db) (pkg : ActionPackage)
    (actions : List Action) (dis : Bool) (hrec : Reconciled db pkg actions) :
    (addActionsToDb db pkg actions dis Option.none).1.action_packages.map (fun p => p.id) =
      db.action_packages.map (fun p => p.id) ∧
    (addActionsToDb db pkg actions dis Option.none).1.actions.map (fun a => a.id) =
      db.actions.map (fun a => a.id) := by
  obtain ⟨E, hfind, _, hact⟩ := hrec
  rw [addActionsToDb_commit db pkg actions dis E hfind]
  show ((applyWrites db _).action_packages.map _ = _) ∧ ((applyWrites db _).actions.map _ = _)
  rw [applyWrites_components]
  constructor
  · show (applyPList db.action_packages (updateBranchWrites db pkg actions dis E)).map _ = _
    rw [applyPList_ids, insertsOfP_updateBranch]
    simp
  · show (applyAList db.actions (updateBranchWrites db pkg actions dis E)).map _ = _
    rw [applyAList_ids, insertsOfA_updateBranch]
    have hempty : actions.filter (fun a => (pyDictGetByName (nmOf db E) a.name).isNone) = [] := by
      refine List.filter_eq_nil_iff.mpr ?_
      intro a ha
      obtain ⟨r, hlook, _⟩ := hact a ha
      rw [hlook]
      simp
    rw [hempty]
    simp

/-- Id uniqueness of both tables is preserved by a committed import with
freshly generated ids. -/
theorem addActionsToDb_WF (db : Db) (pkg : ActionPackage) (actions : List Action) (dis : Bool)
    (hWFp : (db.action_packages.map (fun p => p.id)).Nodup)
    (hWFa : (db.actions.map (fun a => a.id)).Nodup)
    (hpkgfresh : pkg.id ∉ db.action_packages.map (fun p => p.id))
    (hids : (actions.map (fun a => a.id)).Nodup)
    (hfresh : ∀ a ∈ actions, a.id ∉ db.actions.map (fun x => x.id)) :
    ((addActionsToDb db pkg actions dis Option.none).1.action_packages.map
      (fun p => p.id)).Nodup ∧
    ((addActionsToDb db pkg actions dis Option.none).1.actions.map (fun a => a.id)).Nodup := by
  cases hfind : db.action_packages.find? (fun p => p.name == pkg.name) with
  | none =>
      rw [addActionsToDb_insert_branch db pkg actions dis Option.none hfind,
        runTransaction_commit, applyWrites_insert_branch]
      constructor
      · show ((db.action_packages ++ [pkg]).map (fun p => p.id)).Nodup
        rw [List.map_append]
        rw [List.nodup_append]
        refine ⟨hWFp, by simp, ?_⟩
        intro x hx
        simp only [List.map_cons, List.map_nil, List.mem_singleton]
        intro hxid
        exact hpkgfresh (hxid ▸ hx)
      · show ((db.actions ++ actions).map (fun a => a.id)).Nodup
        rw [List.map_append, List.nodup_append]
        refine ⟨hWFa, hids, ?_⟩
        intro x hx hx2
        obtain ⟨a, ha, rfl⟩ := List.mem_map.mp hx2
        exact hfresh a ha hx
  | some E =>
      rw [addActionsToDb_commit db pkg actions dis E hfind]
      show ((applyWrites db _).action_packages.map _).Nodup ∧
        ((applyWrites db _).actions.map _).Nodup
      rw [applyWrites_components]
      constructor
      · show ((applyPList db.action_packages (updateBranchWrites db pkg actions dis E)).map
          (fun p => p.id)).Nodup
        rw [applyPList_ids, insertsOfP_updateBranch]
        simpa using hWFp
      · show ((applyAList db.actions (updateBranchWrites db pkg actions dis E)).map
          (fun a => a.id)).Nodup
        rw [applyAList_ids, insertsOfA_updateBranch]
        have hins : ((actions.filter (fun a => (pyDictGetByName (nmOf db E) a.name).isNone)).map
            (fun a => { a with action_package_id := E.id } : Action → Action)).map
            (fun a => a.id) =
            (actions.filter (fun a => (pyDictGetByName (nmOf db E) a.name).isNone)).map
              (fun a => a.id) := by
          rw [List.map_map]
          rfl
        rw [hins, List.nodup_append]
        refine ⟨hWFa, nodup_ids_filter _ _ hids, ?_⟩
        intro x hx hx2
        obtain ⟨a, ha, rfl⟩ := List.mem_map.mp hx2
        exact hfresh a (List.mem_of_mem_filter ha) hx

/-- The row matched by a discovered action ends up carrying exactly that
action's fields after the whole update/disable chain (the disable pass never
touches a seen id). -/
theorem chain_on_matched (db : Db) (E : ActionPackage) (actions : List Action) (dis : Bool)
    (hWFa : (db.actions.map (fun x => x.id)).Nodup)
    (hnames : (actions.map (fun x => x.name)).Nodup)
    (a : Action) (ha : a ∈ actions) (ex : Action)
    (hlook : pyDictGetByName (nmOf db E) a.name = Option.some ex) :
    updChainA (actionWritesOf db E actions dis) ex =
      { a with action_package_id := E.id, id := ex.id } := by
  unfold actionWritesOf
  rw [updChainA_append]
  rw [updChainA_settled_hit E.id (nmOf db E) actions hnames
    (nodup_ids_filter _ _ hWFa) a ha ex hlook ex rfl]
  have hseen : ex.id ∈ seenOf db E actions := by
    unfold seenOf
    rw [← seenIdOf_of_some hlook]
    exact List.mem_map_of_mem _ ha
  cases dis with
  | false =>
      rw [if_neg (by decide)]
      rfl
  | true =>
      rw [if_pos rfl, disables_as_ids, updChainA_all_disables]
      rw [if_neg ?hnot]
      case hnot =>
        show ({ a with action_package_id := E.id, id := ex.id } : Action).id ∉ _
        show ex.id ∉ _
        intro hmem
        obtain ⟨x, hx, hxid⟩ := List.mem_map.mp hmem
        have hxf := List.mem_filter.mp hx
        have : (seenOf db E actions).contains x.id = true := by
          rw [hxid]
          exact contains_iff_mem.mpr hseen
        rw [this] at hxf
        simp at hxf

/-- The dict lookup in the committed update-branch state: every discovered
action's name resolves to a settled row carrying its fields, whose id is the
id the import marked seen. -/
theorem settled_lookup (db : Db) (actions1 : List Action) (dis : Bool) (E0 : ActionPackage)
    (hWFa : (db.actions.map (fun x => x.id)).Nodup)
    (hnames1 : (actions1.map (fun x => x.name)).Nodup)
    (a1 : Action) (ha1 : a1 ∈ actions1) :
    ∃ r, pyDictGetByName
        ((nmOf db E0).map (updChainA (actionWritesOf db E0 actions1 dis)) ++
          (actions1.filter (fun a => (pyDictGetByName (nmOf db E0) a.name).isNone)).map
            (fun a => { a with action_package_id := E0.id })) a1.name = Option.some r ∧
      r = { a1 with id := r.id, action_package_id := E0.id } ∧
      r.id = seenIdOf (nmOf db E0) a1 := by
  rw [pyDictGetByName_append]
  cases hlook : pyDictGetByName (nmOf db E0) a1.name with
  | some ex =>
      have hinsnone : pyDictGetByName
          ((actions1.filter (fun a => (pyDictGetByName (nmOf db E0) a.name).isNone)).map
            (fun a => { a with action_package_id := E0.id })) a1.name = Option.none := by
        refine pyDictGetByName_eq_none.mpr ?_
        intro b hb
        obtain ⟨a, haf, rfl⟩ := List.mem_map.mp hb
        show a.name ≠ a1.name
        intro he
        have hfa := (List.mem_filter.mp haf).2
        rw [he, hlook] at hfa
        simp at hfa
      have hnamePres : ∀ r ∈ nmOf db E0,
          (updChainA (actionWritesOf db E0 actions1 dis) r).name = r.name := fun r hr =>
        chain_preserves_name db E0 actions1 dis hWFa r (List.mem_of_mem_filter hr)
      have hmaplook : pyDictGetByName
          ((nmOf db E0).map (updChainA (actionWritesOf db E0 actions1 dis))) a1.name =
          Option.some (updChainA (actionWritesOf db E0 actions1 dis) ex) := by
        rw [pyDictGetByName_map_local _ _ _ hnamePres, hlook]
        rfl
      rw [hinsnone, hmaplook]
      refine ⟨_, rfl, ?_, ?_⟩
      · rw [chain_on_matched db E0 actions1 dis hWFa hnames1 a1 ha1 ex hlook]
      · rw [chain_on_matched db E0 actions1 dis hWFa hnames1 a1 ha1 ex hlook,
          seenIdOf_of_some hlook]
  | none =>
      have hmem : a1 ∈ actions1.filter (fun a => (pyDictGetByName (nmOf db E0) a.name).isNone) :=
        List.mem_filter.mpr ⟨ha1, by rw [hlook]; rfl⟩
      have hinsmem : ({ a1 with action_package_id := E0.id } : Action) ∈
          (actions1.filter (fun a => (pyDictGetByName (nmOf db E0) a.name).isNone)).map
            (fun a => { a with action_package_id := E0.id }) :=
        List.mem_map_of_mem _ hmem
      have hnodup : (((actions1.filter
          (fun a => (pyDictGetByName (nmOf db E0) a.name).isNone)).map
            (fun a => ({ a with action_package_id := E0.id } : Action))).map
              (fun x => x.name)).Nodup := by
        rw [List.map_map]
        have : (actions1.filter (fun a => (pyDictGetByName (nmOf db E0) a.name).isNone)).map
            ((fun x : Action => x.name) ∘ (fun a => ({ a with action_package_id := E0.id } : Action))) =
            (actions1.filter (fun a => (pyDictGetByName (nmOf db E0) a.name).isNone)).map
              (fun x => x.name) := by
          refine List.map_congr_left (fun x _ => rfl)
        rw [this]
        exact hnames1.sublist ((actions1.filter_sublist).map _)
      have hlookins := pyDictGetByName_unique hnodup hinsmem
      rw [show ({ a1 with action_package_id := E0.id } : Action).name = a1.name from rfl] at hlookins
      rw [hlookins]
      refine ⟨_, rfl, rfl, ?_⟩
      rw [seenIdOf_of_none hlook]

theorem forall₂_mem_right {α β : Type} {R : α → β → Prop} {l1 : List α} {l2 : List β}
    (h : List.Forall₂ R l1 l2) : ∀ b ∈ l2, ∃ a ∈ l1, R a b := by
  induction h with
  | nil => intro b hb; cases hb
  | cons hR hrest ih =>
      intro b hb
      rcases List.mem_cons.mp hb with rfl | hb2
      · exact ⟨_, List.mem_cons_self _ _, hR⟩
      · obtain ⟨a, ha, hab⟩ := ih b hb2
        exact ⟨a, List.mem_cons_of_mem _ ha, hab⟩

/-- After the insert branch commits, the catalog is reconciled with respect
to any equivalently computed re-import inputs. -/
theorem reconciled_after_insert (db : Db) (pkg1 : ActionPackage) (actions1 : List Action)
    (dis : Bool) (pkg2 : ActionPackage) (actions2 : List Action)
    (hfind : db.action_packages.find? (fun p => p.name == pkg1.name) = Option.none)
    (hrowfresh : ∀ r ∈ db.actions, r.action_package_id ≠ pkg1.id)
    (hpkgid1 : ∀ a ∈ actions1, a.action_package_id = pkg1.id)
    (hnames1 : (actions1.map (fun a => a.name)).Nodup)
    (hpkg : SamePkgFields pkg1 pkg2)
    (hcorr : List.Forall₂ SameDiscovery actions1 actions2) :
    Reconciled (addActionsToDb db pkg1 actions1 dis Option.none).1 pkg2 actions2 := by
  rw [addActionsToDb_insert_branch db pkg1 actions1 dis Option.none hfind,
    runTransaction_commit]
  show Reconciled (applyWrites db (Write.insertPackage pkg1 ::
    actions1.map Write.insertAction)) pkg2 actions2
  rw [applyWrites_insert_branch]
  have hfind1 : ((⟨db.action_packages ++ [pkg1], db.actions ++ actions1⟩ :
      Db).action_packages).find? (fun p => p.name == pkg2.name) = Option.some pkg1 := by
    show (db.action_packages ++ [pkg1]).find? (fun p => p.name == pkg2.name) = Option.some pkg1
    rw [List.find?_append]
    have hpred : (fun p : ActionPackage => p.name == pkg2.name) =
        (fun p : ActionPackage => p.name == pkg1.name) := funext fun p => by rw [hpkg.1]
    rw [hpred, hfind]
    have hone : [pkg1].find? (fun p => p.name == pkg1.name) = Option.some pkg1 := by
      rw [List.find?_cons_of_pos _ (by simp)]
    rw [hone]
    rfl
  have hnm1 : nmOf ⟨db.action_packages ++ [pkg1], db.actions ++ actions1⟩ pkg1 = actions1 := by
    show (db.actions ++ actions1).filter (fun a => a.action_package_id == pkg1.id) = actions1
    rw [List.filter_append]
    have h1 : db.actions.filter (fun a => a.action_package_id == pkg1.id) = [] :=
      List.filter_eq_nil_iff.mpr (fun r hr => by simpa using hrowfresh r hr)
    have h2 : actions1.filter (fun a => a.action_package_id == pkg1.id) = actions1 :=
      List.filter_eq_self.mpr (fun a ha => by simpa using hpkgid1 a ha)
    rw [h1, h2]
    rfl
  refine ⟨pkg1, hfind1, ?_, ?_⟩
  · obtain ⟨hn, hd, hc, he⟩ := hpkg
    cases pkg1; cases pkg2
    simp_all
  · intro a2 ha2
    obtain ⟨a1, ha1, hsd⟩ := forall₂_mem_right hcorr a2 ha2
    refine ⟨a1, ?_, ?_⟩
    · rw [hnm1, ← hsd.1]
      exact pyDictGetByName_unique hnames1 ha1
    · have hpk := hpkgid1 a1 ha1
      obtain ⟨h1, h2, h3, h4, h5, h6, h7, h8⟩ := hsd
      cases a1; cases a2
      simp_all

/-- After the update branch commits, the catalog is reconciled with respect
to any equivalently computed re-import inputs, and (when disabling was
requested) every unseen action is disabled. -/
theorem reconciled_after_update (db : Db) (pkg1 : ActionPackage) (actions1 : List Action)
    (dis : Bool) (E0 : ActionPackage) (pkg2 : ActionPackage) (actions2 : List Action)
    (hfind : db.action_packages.find? (fun p => p.name == pkg1.name) = Option.some E0)
    (hWFp : (db.action_packages.map (fun p => p.id)).Nodup)
    (hWFa : (db.actions.map (fun a => a.id)).Nodup)
    (hnames1 : (actions1.map (fun a => a.name)).Nodup)
    (hfresh1 : ∀ a ∈ actions1, a.id ∉ db.actions.map (fun x => x.id))
    (hpkg : SamePkgFields pkg1 pkg2)
    (hcorr : List.Forall₂ SameDiscovery actions1 actions2) :
    Reconciled (addActionsToDb db pkg1 actions1 dis Option.none).1 pkg2 actions2 ∧
    (dis = true → StaleDisabled (addActionsToDb db pkg1 actions1 dis Option.none).1
      pkg2 actions2) := by
  have hdb1 : (addActionsToDb db pkg1 actions1 dis Option.none).1 =
      ⟨db.action_packages.map
          (fun r => if r.id == E0.id then { pkg1 with id := r.id } else r),
        db.actions.map (updChainA (actionWritesOf db E0 actions1 dis)) ++
          (actions1.filter (fun a => (pyDictGetByName (nmOf db E0) a.name).isNone)).map
            (fun a => { a with action_package_id := E0.id })⟩ := by
    rw [addActionsToDb_commit db pkg1 actions1 dis E0 hfind]
    exact applyWrites_update_branch db pkg1 actions1 dis E0 hfresh1
  rw [hdb1]
  have hE0mem : E0 ∈ db.action_packages := List.mem_of_find?_eq_some hfind
  have hE0name : E0.name = pkg1.name := by simpa using List.find?_some hfind
  have hσpE0 : (fun r : ActionPackage => if r.id == E0.id then { pkg1 with id := r.id } else r)
      E0 = { pkg1 with id := E0.id } := by simp
  have hfind1 : (db.action_packages.map
      (fun r => if r.id == E0.id then { pkg1 with id := r.id } else r)).find?
        (fun p => p.name == pkg2.name) = Option.some { pkg1 with id := E0.id } := by
    have hmemwise : ∀ p ∈ db.action_packages,
        (((fun r : ActionPackage => if r.id == E0.id then { pkg1 with id := r.id } else r)
          p).name == pkg2.name) = (p.name == pkg2.name) := by
      intro p hp
      by_cases hpid : p.id = E0.id
      · have hpE : p = E0 := List.inj_on_of_nodup_map hWFp hp hE0mem hpid
        show ((if p.id == E0.id then { pkg1 with id := p.id } else p).name == pkg2.name) =
          (p.name == pkg2.name)
        rw [if_pos (by simpa using hpid)]
        show (pkg1.name == pkg2.name) = (p.name == pkg2.name)
        rw [hpE, hE0name]
      · show ((if p.id == E0.id then { pkg1 with id := p.id } else p).name == pkg2.name) =
          (p.name == pkg2.name)
        rw [if_neg (by simpa using hpid)]
    rw [find?_map_local _ _ _ hmemwise]
    have hpred : (fun p : ActionPackage => p.name == pkg2.name) =
        (fun p : ActionPackage => p.name == pkg1.name) := funext fun p => by rw [hpkg.1]
    rw [hpred, hfind]
    show Option.some _ = _
    rw [hσpE0]
  have hnm1 : nmOf
      ⟨db.action_packages.map
          (fun r => if r.id == E0.id then { pkg1 with id := r.id } else r),
        db.actions.map (updChainA (actionWritesOf db E0 actions1 dis)) ++
          (actions1.filter (fun a => (pyDictGetByName (nmOf db E0) a.name).isNone)).map
            (fun a => { a with action_package_id := E0.id })⟩ { pkg1 with id := E0.id } =
      (nmOf db E0).map (updChainA (actionWritesOf db E0 actions1 dis)) ++
        (actions1.filter (fun a => (pyDictGetByName (nmOf db E0) a.name).isNone)).map
          (fun a => { a with action_package_id := E0.id }) := by
    show (db.actions.map (updChainA (actionWritesOf db E0 actions1 dis)) ++
        (actions1.filter (fun a : Action => (pyDictGetByName (nmOf db E0) a.name).isNone)).map
          (fun a : Action => { a with action_package_id := E0.id })).filter
        (fun a : Action => a.action_package_id == E0.id) = _
    rw [List.filter_append]
    have hpart1 : (db.actions.map (updChainA (actionWritesOf db E0 actions1 dis))).filter
        (fun a => a.action_package_id == E0.id) = (nmOf db E0).map
          (updChainA (actionWritesOf db E0 actions1 dis)) := by
      exact filter_map_local db.actions _ _ (fun r hr => by
        rw [chain_preserves_pkgid db E0 actions1 dis hWFa r hr])
    have hpart2 : ((actions1.filter
        (fun a => (pyDictGetByName (nmOf db E0) a.name).isNone)).map
          (fun a => ({ a with action_package_id := E0.id } : Action))).filter
        (fun a => a.action_package_id == E0.id) =
        (actions1.filter (fun a => (pyDictGetByName (nmOf db E0) a.name).isNone)).map
          (fun a => { a with action_package_id := E0.id }) := by
      refine List.filter_eq_self.mpr ?_
      intro b hb
      obtain ⟨a, _, rfl⟩ := List.mem_map.mp hb
      simp
    rw [hpart1, hpart2]
  refine ⟨⟨{ pkg1 with id := E0.id }, hfind1, ?_, ?_⟩, ?_⟩
  · obtain ⟨hn, hd, hc, he⟩ := hpkg
    cases pkg1; cases pkg2
    simp_all
  · intro a2 ha2
    obtain ⟨a1, ha1, hsd⟩ := forall₂_mem_right hcorr a2 ha2
    obtain ⟨r, hlook, hr, hrid⟩ := settled_lookup db actions1 dis E0 hWFa hnames1 a1 ha1
    refine ⟨r, ?_, ?_⟩
    · rw [hnm1, ← hsd.1]
      exact hlook
    · show r = { a2 with id := r.id, action_package_id := E0.id }
      refine hr.trans ?_
      obtain ⟨h1, h2, h3, h4, h5, h6, h7, h8⟩ := hsd
      rw [h1, h2, h3, h4, h5, h6, h7, h8]
  · intro hdist
    subst hdist
    intro row hrow hunseen
    have hseen2 : importSeenIds
        ⟨db.action_packages.map
            (fun r => if r.id == E0.id then { pkg1 with id := r.id } else r),
          db.actions.map (updChainA (actionWritesOf db E0 actions1 true)) ++
            (actions1.filter (fun a => (pyDictGetByName (nmOf db E0) a.name).isNone)).map
              (fun a => { a with action_package_id := E0.id })⟩ pkg2 actions2 =
        actions2.map (seenIdOf
          ((nmOf db E0).map (updChainA (actionWritesOf db E0 actions1 true)) ++
            (actions1.filter (fun a => (pyDictGetByName (nmOf db E0) a.name).isNone)).map
              (fun a => { a with action_package_id := E0.id }))) := by
      rw [seenOf_eq_importSeenIds _ pkg2 actions2 { pkg1 with id := E0.id } hfind1]
      show actions2.map (seenIdOf (nmOf _ { pkg1 with id := E0.id })) = _
      rw [hnm1]
    have hpoint : ∀ l1 l2, List.Forall₂ SameDiscovery l1 l2 → (∀ x ∈ l1, x ∈ actions1) →
        l2.map (seenIdOf
          ((nmOf db E0).map (updChainA (actionWritesOf db E0 actions1 true)) ++
            (actions1.filter (fun a => (pyDictGetByName (nmOf db E0) a.name).isNone)).map
              (fun a => { a with action_package_id := E0.id }))) =
        l1.map (seenIdOf (nmOf db E0)) := by
      intro l1 l2 hf
      induction hf with
      | nil => intro _; rfl
      | @cons a b l1t l2t hR hrest ih =>
          intro hsub
          rw [List.map_cons, List.map_cons,
            ih (fun x hx => hsub x (List.mem_cons_of_mem _ hx))]
          obtain ⟨r, hlook, hr, hrid⟩ :=
            settled_lookup db actions1 true E0 hWFa hnames1 a (hsub a (List.mem_cons_self _ _))
          have hhead : seenIdOf
              ((nmOf db E0).map (updChainA (actionWritesOf db E0 actions1 true)) ++
                (actions1.filter (fun x => (pyDictGetByName (nmOf db E0) x.name).isNone)).map
                  (fun x => { x with action_package_id := E0.id })) b = r.id := by
            unfold seenIdOf
            rw [← hR.1, hlook]
          rw [hhead, hrid]
    have hseenEq := hpoint actions1 actions2 hcorr (fun x hx => hx)
    rw [hseen2, hseenEq] at hunseen
    rcases List.mem_append.mp hrow with hmap | hinsmem
    · obtain ⟨r0, hr0, rfl⟩ := List.mem_map.mp hmap
      have hr0unseen : r0.id ∉ seenOf db E0 actions1 := by
        have hid : (updChainA (actionWritesOf db E0 actions1 true) r0).id = r0.id :=
          updChainA_id_preserved _ _
        rw [← hid]
        exact hunseen
      have hchain := chain_on_unseen db E0 actions1 true r0 hr0 hr0unseen
      rw [if_pos rfl] at hchain
      rw [hchain]
    · obtain ⟨a, haf, rfl⟩ := List.mem_map.mp hinsmem
      have ha : a ∈ actions1 := List.mem_of_mem_filter haf
      have hanone : pyDictGetByName (nmOf db E0) a.name = Option.none := by
        have := (List.mem_filter.mp haf).2
        rwa [Option.isNone_iff_eq_none] at this
      refine absurd ?_ hunseen
      show ({ a with action_package_id := E0.id } : Action).id ∈
        actions1.map (seenIdOf (nmOf db E0))
      show a.id ∈ actions1.map (seenIdOf (nmOf db E0))
      rw [← seenIdOf_of_none hanone]
      exact List.mem_map_of_mem _ ha

/-- C2 (amended): re-importing the same package directory with the same
discovered action set (fresh generated ids, identical computed fields) leaves
the package-row id list and the action-row id list unchanged in every case;
and provided disabling was not requested or the package name already existed
in the catalog before the first import, the second import leaves the whole
catalog — in particular every action's enabled flag — unchanged.  (When
disabling is requested and the package was new, the first import's insert
branch runs no disable pass while the second import's update branch disables
every unseen action catalog-wide, so other packages' enabled flags may
change; see the counterexample.) -/
theorem c2_reimport_amended (db : Db) (pkg1 pkg2 : ActionPackage)
    (actions1 actions2 : List Action) (dis : Bool)
    (hWFp : (db.action_packages.map (fun p => p.id)).Nodup)
    (hWFa : (db.actions.map (fun a => a.id)).Nodup)
    (hnames1 : (actions1.map (fun a => a.name)).Nodup)
    (hids1 : (actions1.map (fun a => a.id)).Nodup)
    (hfresh1 : ∀ a ∈ actions1, a.id ∉ db.actions.map (fun x => x.id))
    (hpkgfresh : pkg1.id ∉ db.action_packages.map (fun p => p.id))
    (hrowfresh : ∀ r ∈ db.actions, r.action_package_id ≠ pkg1.id)
    (hpkgid1 : ∀ a ∈ actions1, a.action_package_id = pkg1.id)
    (hpkg : SamePkgFields pkg1 pkg2)
    (hcorr : List.Forall₂ SameDiscovery actions1 actions2) :
    ((addActionsToDb (addActionsToDb db pkg1 actions1 dis Option.none).1 pkg2 actions2 dis
        Option.none).1.action_packages.map (fun p => p.id) =
      (addActionsToDb db pkg1 actions1 dis Option.none).1.action_packages.map
        (fun p => p.id)) ∧
    ((addActionsToDb (addActionsToDb db pkg1 actions1 dis Option.none).1 pkg2 actions2 dis
        Option.none).1.actions.map (fun a => a.id) =
      (addActionsToDb db pkg1 actions1 dis Option.none).1.actions.map (fun a => a.id)) ∧
    ((dis = false ∨
        (db.action_packages.find? (fun p => p.name == pkg1.name)).isSome = true) →
      (addActionsToDb (addActionsToDb db pkg1 actions1 dis Option.none).1 pkg2 actions2 dis
        Option.none).1 = (addActionsToDb db pkg1 actions1 dis Option.none).1) := by
  have hrec : Reconciled (addActionsToDb db pkg1 actions1 dis Option.none).1 pkg2 actions2 := by
    cases hfind : db.action_packages.find? (fun p => p.name == pkg1.name) with
    | none =>
        exact reconciled_after_insert db pkg1 actions1 dis pkg2 actions2 hfind hrowfresh
          hpkgid1 hnames1 hpkg hcorr
    | some E0 =>
        exact (reconciled_after_update db pkg1 actions1 dis E0 pkg2 actions2 hfind hWFp hWFa
          hnames1 hfresh1 hpkg hcorr).1
  have hids := addActionsToDb_ids_of_reconciled
    (addActionsToDb db pkg1 actions1 dis Option.none).1 pkg2 actions2 dis hrec
  refine ⟨hids.1, hids.2, ?_⟩
  intro hside
  have hWF1 := addActionsToDb_WF db pkg1 actions1 dis hWFp hWFa hpkgfresh hids1 hfresh1
  have hstale : dis = true →
      StaleDisabled (addActionsToDb db pkg1 actions1 dis Option.none).1 pkg2 actions2 := by
    intro hdist
    rcases hside with hfalse | hsome
    · rw [hdist] at hfalse; cases hfalse
    · obtain ⟨E0, hfind⟩ := Option.isSome_iff_exists.mp hsome
      exact (reconciled_after_update db pkg1 actions1 dis E0 pkg2 actions2 hfind hWFp hWFa
        hnames1 hfresh1 hpkg hcorr).2 hdist
  have hstab := addActionsToDb_stable (addActionsToDb db pkg1 actions1 dis Option.none).1
    pkg2 actions2 dis hWF1.1 hWF1.2 hrec hstale
  rw [hstab]

theorem c2_reimport_amended_witness :
    ((addActionsToDb (addActionsToDb ⟨[], []⟩ ⟨"p1", "pkg", "d", "h", "e"⟩
        [⟨"a1", "p1", "x", "", "f", 1, "i", "o", true, Option.none⟩] false Option.none).1
        ⟨"p2", "pkg", "d", "h", "e"⟩
        [⟨"a2", "p2", "x", "", "f", 1, "i", "o", true, Option.none⟩] false
        Option.none).1.action_packages.map (fun p => p.id) =
      (addActionsToDb ⟨[], []⟩ ⟨"p1", "pkg", "d", "h", "e"⟩
        [⟨"a1", "p1", "x", "", "f", 1, "i", "o", true, Option.none⟩] false
        Option.none).1.action_packages.map (fun p => p.id)) ∧
    ((addActionsToDb (addActionsToDb ⟨[], []⟩ ⟨"p1", "pkg", "d", "h", "e"⟩
        [⟨"a1", "p1", "x", "", "f", 1, "i", "o", true, Option.none⟩] false Option.none).1
        ⟨"p2", "pkg", "d", "h", "e"⟩
        [⟨"a2", "p2", "x", "", "f", 1, "i", "o", true, Option.none⟩] false
        Option.none).1.actions.map (fun a => a.id) =
      (addActionsToDb ⟨[], []⟩ ⟨"p1", "pkg", "d", "h", "e"⟩
        [⟨"a1", "p1", "x", "", "f", 1, "i", "o", true, Option.none⟩] false
        Option.none).1.actions.map (fun a => a.id)) ∧
    ((false = false ∨
        ((⟨[], []⟩ : Db).action_packages.find?
          (fun p => p.name == ("pkg" : String))).isSome = true) →
      (addActionsToDb (addActionsToDb ⟨[], []⟩ ⟨"p1", "pkg", "d", "h", "e"⟩
        [⟨"a1", "p1", "x", "", "f", 1, "i", "o", true, Option.none⟩] false Option.none).1
        ⟨"p2", "pkg", "d", "h", "e"⟩
        [⟨"a2", "p2", "x", "", "f", 1, "i", "o", true, Option.none⟩] false
        Option.none).1 = (addActionsToDb ⟨[], []⟩ ⟨"p1", "pkg", "d", "h", "e"⟩
        [⟨"a1", "p1", "x", "", "f", 1, "i", "o", true, Option.none⟩] false
        Option.none).1) :=
  c2_reimport_amended ⟨[], []⟩ ⟨"p1", "pkg", "d", "h", "e"⟩ ⟨"p2", "pkg", "d", "h", "e"⟩
    [⟨"a1", "p1", "x", "", "f", 1, "i", "o", true, Option.none⟩]
    [⟨"a2", "p2", "x", "", "f", 1, "i", "o", true, Option.none⟩] false
    (by decide) (by decide) (by decide) (by decide) (by decide) (by decide) (by decide)
    (by decide) ⟨rfl, rfl, rfl, rfl⟩
    (List.Forall₂.cons ⟨rfl, rfl, rfl, rfl, rfl, rfl, rfl, rfl⟩ List.Forall₂.nil)

/-- C2 counterexample: the claim as stated is false.  Catalog: package
`other` with one enabled action `y`; the imported package `pkg` (one action
`x`) is new.  With `disable_not_imported = true`, the first import takes the
insert branch (no disable pass), the second import takes the update branch
and disables the other package's action `y`, so the enabled flags change
between the two imports. -/
theorem c2_counterexample :
    ¬((addActionsToDb (addActionsToDb
          ⟨[⟨"q1", "other", "d", "h", "e"⟩],
           [⟨"b1", "q1", "y", "", "f", 1, "i", "o", true, Option.none⟩]⟩
          ⟨"p1", "pkg", "d", "h", "e"⟩
          [⟨"a1", "p1", "x", "", "f", 1, "i", "o", true, Option.none⟩] true Option.none).1
        ⟨"p2", "pkg", "d", "h", "e"⟩
        [⟨"a2", "p2", "x", "", "f", 1, "i", "o", true, Option.none⟩] true
        Option.none).1.actions.map (fun a => a.enabled) =
      (addActionsToDb
          ⟨[⟨"q1", "other", "d", "h", "e"⟩],
           [⟨"b1", "q1", "y", "", "f", 1, "i", "o", true, Option.none⟩]⟩
          ⟨"p1", "pkg", "d", "h", "e"⟩
          [⟨"a1", "p1", "x", "", "f", 1, "i", "o", true, Option.none⟩] true
          Option.none).1.actions.map (fun a => a.enabled)) := by decide

/-- The action names the catalog holds for one package. -/
def packageActionNames (db : Db) (pid : String) : List String :=
  (db.actions.filter (fun a => a.action_package_id == pid)).map (fun a => a.name)

/-- C9 counterexample: the claim as stated is false.  A discovery list that
reports two records with the same name `x`, imported into a fresh package,
is inserted verbatim: the catalog then holds two action rows named `x` for
that package. -/
theorem c9_counterexample :
    ¬(packageActionNames (addActionsToDb ⟨[], []⟩ ⟨"p1", "pkg", "d", "h", "e"⟩
        [⟨"a1", "p1", "x", "", "f", 1, "i", "o", true, Option.none⟩,
         ⟨"a2", "p1", "x", "", "f", 2, "i", "o", true, Option.none⟩] false
        Option.none).1 "p1").Nodup := by decide

/-- C9 (amended): per-package action-name uniqueness is an invariant the
reconciler preserves for discovered lists whose names are pairwise distinct
(with freshly generated ids); it is not enforced against a discovered list
that itself repeats a name — such a list inserts duplicate names (see the
counterexample). -/
theorem c9_per_package_name_uniqueness (db : Db) (pkg : ActionPackage)
    (actions : List Action) (dis : Bool)
    (hWFa : (db.actions.map (fun a => a.id)).Nodup)
    (hnames : (actions.map (fun a => a.name)).Nodup)
    (hfresh : ∀ a ∈ actions, a.id ∉ db.actions.map (fun x => x.id))
    (hrowfresh : ∀ r ∈ db.actions, r.action_package_id ≠ pkg.id)
    (hpkgid : ∀ a ∈ actions, a.action_package_id = pkg.id)
    (hpre : ∀ pid, (packageActionNames db pid).Nodup) :
    ∀ pid, (packageActionNames (addActionsToDb db pkg actions dis Option.none).1 pid).Nodup := by
  intro pid
  cases hfind : db.action_packages.find? (fun p => p.name == pkg.name) with
  | none =>
      rw [addActionsToDb_insert_branch db pkg actions dis Option.none hfind,
        runTransaction_commit]
      show (packageActionNames (applyWrites ⟨db.action_packages, db.actions⟩
        (Write.insertPackage pkg :: actions.map Write.insertAction)) pid).Nodup
      rw [applyWrites_insert_branch]
      show (((db.actions ++ actions).filter (fun a => a.action_package_id == pid)).map
        (fun a => a.name)).Nodup
      rw [List.filter_append]
      by_cases hpid : pid = pkg.id
      · subst hpid
        have h1 : db.actions.filter (fun a => a.action_package_id == pkg.id) = [] :=
          List.filter_eq_nil_iff.mpr (fun r hr => by simpa using hrowfresh r hr)
        have h2 : actions.filter (fun a => a.action_package_id == pkg.id) = actions :=
          List.filter_eq_self.mpr (fun a ha => by simpa using hpkgid a ha)
        rw [h1, h2, List.nil_append]
        exact hnames
      · have h2 : actions.filter (fun a => a.action_package_id == pid) = [] :=
          List.filter_eq_nil_iff.mpr (fun a ha => by
            rw [hpkgid a ha]
            simpa using fun he => hpid he.symm)
        rw [h2, List.append_nil]
        exact hpre pid
  | some E0 =>
      have hdb1 : (addActionsToDb db pkg actions dis Option.none).1 =
          ⟨db.action_packages.map
              (fun r => if r.id == E0.id then { pkg with id := r.id } else r),
            db.actions.map (updChainA (actionWritesOf db E0 actions dis)) ++
              (actions.filter (fun a => (pyDictGetByName (nmOf db E0) a.name).isNone)).map
                (fun a => { a with action_package_id := E0.id })⟩ := by
        rw [addActionsToDb_commit db pkg actions dis E0 hfind]
        exact applyWrites_update_branch db pkg actions dis E0 hfresh
      rw [hdb1]
      show (((db.actions.map (updChainA (actionWritesOf db E0 actions dis)) ++
          (actions.filter (fun a : Action => (pyDictGetByName (nmOf db E0) a.name).isNone)).map
            (fun a : Action => { a with action_package_id := E0.id })).filter
          (fun a : Action => a.action_package_id == pid)).map (fun a : Action => a.name)).Nodup
      rw [List.filter_append]
      have hpart1 : (db.actions.map (updChainA (actionWritesOf db E0 actions dis))).filter
          (fun a => a.action_package_id == pid) =
          (db.actions.filter (fun a => a.action_package_id == pid)).map
            (updChainA (actionWritesOf db E0 actions dis)) :=
        filter_map_local db.actions _ _ (fun r hr => by
          rw [chain_preserves_pkgid db E0 actions dis hWFa r hr])
      have hnames1 : ((db.actions.filter (fun a => a.action_package_id == pid)).map
          (updChainA (actionWritesOf db E0 actions dis))).map (fun a => a.name) =
          packageActionNames db pid := by
        rw [List.map_map]
        refine List.map_congr_left (fun r hr => ?_)
        exact chain_preserves_name db E0 actions dis hWFa r (List.mem_of_mem_filter hr)
      by_cases hpid : pid = E0.id
      · subst hpid
        have hpart2 : ((actions.filter
            (fun a => (pyDictGetByName (nmOf db E0) a.name).isNone)).map
              (fun a => ({ a with action_package_id := E0.id } : Action))).filter
            (fun a => a.action_package_id == E0.id) =
            (actions.filter (fun a => (pyDictGetByName (nmOf db E0) a.name).isNone)).map
              (fun a => { a with action_package_id := E0.id }) := by
          refine List.filter_eq_self.mpr ?_
          intro b hb
          obtain ⟨a, _, rfl⟩ := List.mem_map.mp hb
          simp
        rw [hpart1, hpart2, List.map_append, hnames1, List.nodup_append]
        refine ⟨hpre _, ?_, ?_⟩
        · rw [List.map_map]
          have hsame : (actions.filter
              (fun a => (pyDictGetByName (nmOf db E0) a.name).isNone)).map
              ((fun a : Action => a.name) ∘
                (fun a : Action => { a with action_package_id := E0.id })) =
              (actions.filter (fun a => (pyDictGetByName (nmOf db E0) a.name).isNone)).map
                (fun a => a.name) := List.map_congr_left (fun a _ => rfl)
          rw [hsame]
          exact hnames.sublist ((actions.filter_sublist).map _)
        · intro n hn hn2
          obtain ⟨r, hrmem, rfl⟩ := List.mem_map.mp hn
          rw [List.map_map] at hn2
          obtain ⟨a, haf, ha⟩ := List.mem_map.mp hn2
          have hanone : pyDictGetByName (nmOf db E0) a.name = Option.none := by
            have := (List.mem_filter.mp haf).2
            rwa [Option.isNone_iff_eq_none] at this
          have haname : a.name = r.name := ha
          have := pyDictGetByName_eq_none.mp hanone r hrmem
          rw [haname] at this
          exact this rfl
      · have hpart2 : ((actions.filter
            (fun a => (pyDictGetByName (nmOf db E0) a.name).isNone)).map
              (fun a => ({ a with action_package_id := E0.id } : Action))).filter
            (fun a => a.action_package_id == pid) = [] := by
          refine List.filter_eq_nil_iff.mpr ?_
          intro b hb
          obtain ⟨a, _, rfl⟩ := List.mem_map.mp hb
          show ¬(({ a with action_package_id := E0.id } : Action).action_package_id == pid) = true
          simpa using fun he => hpid he.symm
        rw [hpart1, hpart2, List.append_nil, hnames1]
        exact hpre pid

theorem c9_per_package_name_uniqueness_witness :
    (packageActionNames (addActionsToDb
        ⟨[⟨"q1", "other", "d", "h", "e"⟩],
         [⟨"b1", "q1", "y", "", "f", 1, "i", "o", true, Option.none⟩]⟩
        ⟨"p1", "pkg", "d", "h", "e"⟩
        [⟨"a1", "p1", "x", "", "f", 1, "i", "o", true, Option.none⟩,
         ⟨"a2", "p1", "z", "", "f", 2, "i", "o", true, Option.none⟩] true
        Option.none).1 "p1").Nodup ∧
    (packageActionNames (addActionsToDb
        ⟨[⟨"q1", "other", "d", "h", "e"⟩],
         [⟨"b1", "q1", "y", "", "f", 1, "i", "o", true, Option.none⟩]⟩
        ⟨"p1", "pkg", "d", "h", "e"⟩
        [⟨"a1", "p1", "x", "", "f", 1, "i", "o", true, Option.none⟩,
         ⟨"a2", "p1", "z", "", "f", 2, "i", "o", true, Option.none⟩] true
        Option.none).1 "q1").Nodup := by
  constructor <;>
  exact
  c9_per_package_name_uniqueness
    ⟨[⟨"q1", "other", "d", "h", "e"⟩],
     [⟨"b1", "q1", "y", "", "f", 1, "i", "o", true, Option.none⟩]⟩
    ⟨"p1", "pkg", "d", "h", "e"⟩
    [⟨"a1", "p1", "x", "", "f", 1, "i", "o", true, Option.none⟩,
     ⟨"a2", "p1", "z", "", "f", 2, "i", "o", true, Option.none⟩] true
    (by decide) (by decide) (by decide) (by decide) (by decide)
    (fun pid => by
      show ((List.filter (fun a => a.action_package_id == pid)
        [(⟨"b1", "q1", "y", "", "f", 1, "i", "o", true, Option.none⟩ : Action)]).map
          (fun a => a.name)).Nodup
      by_cases h : ("q1" : String) = pid
      · subst h; decide
      · rw [show List.filter (fun a : Action => a.action_package_id == pid)
            [(⟨"b1", "q1", "y", "", "f", 1, "i", "o", true, Option.none⟩ : Action)] = [] from
            List.filter_eq_nil_iff.mpr (fun r hr => by
              rcases List.mem_singleton.mp hr with rfl
              simpa using h)]
        decide) _

end RoboImport
